import Mathlib

/-!
Verification of the HP_SBWT_Compression per-block pipeline.

This file is a shallow embedding of the per-block transform-and-encode
pipeline of the repository:
`src/project/utils/algorithms/{rle,mtf,sbwt,huffman,lzw,arithmetic}.py` and
`src/project/utils/support.py`.

Conventions of the embedding:
* Python byte values are `Nat`; byte strings / lists of ints are `List Nat`.
* a raised Python exception (`ValueError`, `IndexError`, `TypeError`,
  `KeyError`) is `Option.none`; a normal return is `Option.some`.
* Python `while` loops become recursive functions with explicit termination
  measures; in-place mutation becomes explicit state passing.
* the keyed alphabet order produced by `generate_order_from_key` (a dict
  mapping each distinct byte to its rank in SHA-256-hash order) is abstracted
  as a function parameter `ord_ : Nat → Nat`: for a fixed key the dict is a
  deterministic injective ranking of the bytes, identical on encode and
  decode because the last column is a permutation of the input.  All
  statements about keyed functions quantify over (or instantiate) `ord_`.
-/

namespace HPSBWT

/-! ## Run-Length Encoding, from `src/project/utils/algorithms/rle.py` -/

/-- Embedding of the `while run_length > 255` loop of `flush_run`
(rle.py lines 28-34), reached for runs of length 2 or more: emit
`[255, 255, symbol]` segments until the remainder is at most 255, then the
final `[255, remainder, symbol]` segment. -/
def flush_run_loop (symbol : Nat) (run_length : Nat) : List Nat :=
  if _h : 255 < run_length then
    [255, 255, symbol] ++ flush_run_loop symbol (run_length - 255)
  else
    [255, run_length, symbol]
termination_by run_length

/-- Embedding of `flush_run` (rle.py lines 10-34).  The Python function
appends to the `encoded` list; here the appended segment is returned. -/
def flush_run (symbol : Nat) (run_length : Nat) : List Nat :=
  if run_length = 1 then
    if symbol = 255 then [255, 0] else [symbol]
  else
    flush_run_loop symbol run_length

/-- Embedding of the scanning loop of `rle_encode` (rle.py lines 51-66):
`current_symbol` and `run_length` carry the run being accumulated. -/
def rle_encode_loop (current_symbol : Nat) (run_length : Nat) :
    List Nat → List Nat
  | [] => flush_run current_symbol run_length
  | next_symbol :: rest =>
    if next_symbol = current_symbol then
      rle_encode_loop current_symbol (run_length + 1) rest
    else
      flush_run current_symbol run_length ++ rle_encode_loop next_symbol 1 rest

/-- Embedding of `rle_encode` (rle.py lines 38-67). -/
def rle_encode : List Nat → List Nat
  | [] => []
  | d :: rest => rle_encode_loop d 1 rest

mutual

/-- Embedding of `rle_decode` (rle.py lines 69-110).  The `while index <
data_length` loop with its 1/2/3-byte steps becomes mutual structural
recursion (one function per lookahead depth); the `raise ValueError` for a
missing symbol byte becomes `none`.  Note the source treats a trailing lone
`255` as a literal single `255` (lines 92-94) rather than raising. -/
def rle_decode : List Nat → Option (List Nat)
  | [] => some []
  | value :: rest =>
    if value ≠ 255 then
      (rle_decode rest).map (fun d => value :: d)
    else
      rle_decode_escape rest
termination_by l => l.length

/-- Continuation of `rle_decode` after an escape byte 255 (rle.py lines
91-108): nothing after the 255 means a literal 255; a zero length byte means
a literal 255; otherwise a run follows. -/
def rle_decode_escape : List Nat → Option (List Nat)
  | [] => some [255]
  | run_length :: rest2 =>
    if run_length = 0 then
      (rle_decode rest2).map (fun d => 255 :: d)
    else
      rle_decode_run run_length rest2
termination_by l => l.length

/-- Continuation of `rle_decode` after `255, run_length` with a nonzero
length (rle.py lines 103-108): a missing symbol byte raises. -/
def rle_decode_run (run_length : Nat) : List Nat → Option (List Nat)
  | [] => none
  | symbol :: rest3 =>
    (rle_decode rest3).map (fun d => List.replicate run_length symbol ++ d)
termination_by l => l.length

end

lemma rle_decode_cons_of_ne (v : Nat) (rest : List Nat) (hv : v ≠ 255) :
    rle_decode (v :: rest) = (rle_decode rest).map (fun d => v :: d) := by
  simp only [rle_decode]
  rw [if_pos hv]

lemma rle_decode_escape_zero (rest : List Nat) :
    rle_decode (255 :: 0 :: rest) = (rle_decode rest).map (fun d => 255 :: d) := by
  simp only [rle_decode]
  rw [if_neg (by simp), rle_decode_escape, if_pos rfl]

lemma rle_decode_escape_run (run_length symbol : Nat) (rest : List Nat)
    (h : run_length ≠ 0) :
    rle_decode (255 :: run_length :: symbol :: rest) =
      (rle_decode rest).map (fun d => List.replicate run_length symbol ++ d) := by
  simp only [rle_decode]
  rw [if_neg (by simp), rle_decode_escape, if_neg h, rle_decode_run]

lemma rle_decode_flush_run_loop (symbol run_length : Nat) (rest : List Nat)
    (h : 0 < run_length) :
    rle_decode (flush_run_loop symbol run_length ++ rest) =
      (rle_decode rest).map (fun d => List.replicate run_length symbol ++ d) := by
  induction run_length using Nat.strong_induction_on with
  | _ run_length ih =>
    rw [flush_run_loop]
    by_cases h255 : 255 < run_length
    · rw [dif_pos h255]
      have hshape :
          ([255, 255, symbol] ++ flush_run_loop symbol (run_length - 255)) ++ rest
            = 255 :: 255 :: symbol :: (flush_run_loop symbol (run_length - 255) ++ rest) := by
        simp
      rw [hshape, rle_decode_escape_run 255 symbol _ (by omega),
        ih (run_length - 255) (by omega) (by omega), Option.map_map]
      congr 1
      funext d
      simp only [Function.comp_apply, ← List.append_assoc, ← List.replicate_add]
      rw [show 255 + (run_length - 255) = run_length from by omega]
    · rw [dif_neg h255]
      have hshape : ([255, run_length, symbol] : List Nat) ++ rest
            = 255 :: run_length :: symbol :: rest := by simp
      rw [hshape, rle_decode_escape_run run_length symbol rest (by omega)]

lemma rle_decode_flush_run (symbol run_length : Nat) (rest : List Nat)
    (h : 0 < run_length) :
    rle_decode (flush_run symbol run_length ++ rest) =
      (rle_decode rest).map (fun d => List.replicate run_length symbol ++ d) := by
  rw [flush_run]
  by_cases h1 : run_length = 1
  · subst h1
    by_cases hs : symbol = 255
    · subst hs
      rw [if_pos rfl, if_pos rfl,
        show ([255, 0] : List Nat) ++ rest = 255 :: 0 :: rest by simp,
        rle_decode_escape_zero]
      rfl
    · rw [if_pos rfl, if_neg hs,
        show [symbol] ++ rest = symbol :: rest by simp,
        rle_decode_cons_of_ne symbol rest hs]
      rfl
  · rw [if_neg h1]
    exact rle_decode_flush_run_loop symbol run_length rest h

lemma rle_decode_rle_encode_loop (data : List Nat) :
    ∀ (current_symbol run_length : Nat), 0 < run_length →
    rle_decode (rle_encode_loop current_symbol run_length data) =
      some (List.replicate run_length current_symbol ++ data) := by
  induction data with
  | nil =>
    intro c r hr
    simp only [rle_encode_loop]
    have := rle_decode_flush_run c r [] hr
    simpa [rle_decode] using this
  | cons next rest ih =>
    intro c r hr
    simp only [rle_encode_loop]
    by_cases hn : next = c
    · rw [if_pos hn, ih c (r + 1) (by omega), hn]
      congr 1
      rw [List.replicate_add]
      simp
    · rw [if_neg hn, rle_decode_flush_run c r _ hr, ih next 1 (by omega)]
      simp

/-- C4.  Round-trip of the RLE stage: for every list of byte values,
`rle_decode (rle_encode x)` returns `x`; this covers runs of the escape
value 255 and runs longer than 255. -/
theorem rle_roundtrip (x : List Nat) (hb : ∀ v ∈ x, v ≤ 255) :
    rle_decode (rle_encode x) = some x := by
  cases x with
  | nil => simp [rle_encode, rle_decode]
  | cons d rest =>
    simp only [rle_encode]
    rw [rle_decode_rle_encode_loop rest d 1 (by omega)]
    simp

/-- Witness for C4 at the escape-stress input: a run of 300 copies of 7
followed by a run of two escape bytes 255 round-trips. -/
theorem rle_roundtrip_witness :
    rle_decode (rle_encode (List.replicate 300 7 ++ [255, 255])) =
      some (List.replicate 300 7 ++ [255, 255]) :=
  rle_roundtrip (List.replicate 300 7 ++ [255, 255])
    (by intro v hv
        rcases List.mem_append.1 hv with h | h
        · rw [List.eq_of_mem_replicate h]
          omega
        · have hv255 : v = 255 := by simpa using h
          omega)

lemma rle_decode_rle_encode_loop_append (data : List Nat) :
    ∀ (x : List Nat) (current_symbol run_length : Nat), 0 < run_length →
    rle_decode (rle_encode_loop current_symbol run_length data ++ x) =
      (rle_decode x).map
        (fun d => List.replicate run_length current_symbol ++ data ++ d) := by
  induction data with
  | nil =>
    intro x c r hr
    simp only [rle_encode_loop]
    rw [rle_decode_flush_run c r x hr]
    simp
  | cons next rest ih =>
    intro x c r hr
    simp only [rle_encode_loop]
    by_cases hn : next = c
    · rw [if_pos hn, ih x c (r + 1) (by omega), hn]
      congr 1
      funext d
      rw [List.replicate_add]
      simp
    · rw [if_neg hn, List.append_assoc, rle_decode_flush_run c r _ hr,
        ih x next 1 (by omega), Option.map_map]
      congr 1
      funext d
      simp

lemma rle_decode_rle_encode_append (y x : List Nat) :
    rle_decode (rle_encode y ++ x) = (rle_decode x).map (fun d => y ++ d) := by
  cases y with
  | nil =>
    simp [rle_encode]
  | cons d rest =>
    simp only [rle_encode]
    rw [rle_decode_rle_encode_loop_append rest x d 1 (by omega)]
    simp

/-- C7 (corrected).  Truncating a valid RLE encoding after `255, length`
(nonzero length, missing symbol byte) makes `rle_decode` fail, but
truncating after a bare escape byte `255` does not fail: the decoder treats
the trailing `255` as a literal and returns the decoded prefix plus `255`. -/
theorem rle_decode_truncation (y : List Nat) (run_length : Nat)
    (h : 0 < run_length) :
    rle_decode (rle_encode y ++ [255, run_length]) = none ∧
      rle_decode (rle_encode y ++ [255]) = some (y ++ [255]) := by
  constructor
  · rw [rle_decode_rle_encode_append]
    have : rle_decode [255, run_length] = none := by
      simp only [rle_decode]
      rw [if_neg (by simp), rle_decode_escape, if_neg (by omega), rle_decode_run]
    rw [this]
    rfl
  · rw [rle_decode_rle_encode_append]
    have : rle_decode [255] = some [255] := by
      simp only [rle_decode]
      rw [if_neg (by simp), rle_decode_escape]
    rw [this]
    rfl

/-- Witness for C7: the encoding of `[7]` truncated after `255, 3` fails to
decode, while truncated after a bare `255` it decodes to `[7, 255]`. -/
theorem rle_decode_truncation_witness :
    0 < 3 ∧ (rle_decode (rle_encode [7] ++ [255, 3]) = none ∧
      rle_decode (rle_encode [7] ++ [255]) = some ([7] ++ [255])) :=
  ⟨by omega, rle_decode_truncation [7] 3 (by omega)⟩

/-- Counterexample for C7 as stated: a list consisting of the bare escape
byte `255` (a truncated escape sequence, missing its follow-up byte) does
not make `rle_decode` fail; it decodes to a literal `[255]`. -/
theorem rle_decode_lone_escape_counterexample :
    rle_decode [255] = some [255] := by
  simp only [rle_decode]
  rw [if_neg (by simp), rle_decode_escape]

/-! ## Move-to-Front, from `src/project/utils/algorithms/mtf.py` -/

/-- Embedding of Python `sorted(set(data))` (mtf.py line 26): the distinct
values of `data` in increasing numeric order.  Python set iteration order is
unspecified, but sorting by value makes the result order-independent. -/
def py_sorted_set (data : List Nat) : List Nat :=
  List.insertionSort (· ≤ ·) data.dedup

/-- Embedding of the encoding loop of `mft_encode` (mtf.py lines 35-49):
look up the index of the byte in the current front list (`mtf_dict` is
rebuilt from `mtf_list` each iteration, so the lookup is `idxOf` on the
current list), emit it, and move the byte to the front (`pop` at the index
then `insert` at 0).  The `raise ValueError` branch for a byte missing from
the list is unreachable because the initial list contains every distinct
byte of the data and only gets permuted, so the embedding is total. -/
def mft_encode_loop (mtf_list : List Nat) : List Nat → List Nat
  | [] => []
  | char :: rest =>
    let index := mtf_list.indexOf char
    index :: mft_encode_loop (char :: mtf_list.eraseIdx index) rest

/-- Embedding of `mft_encode` (mtf.py lines 13-52): returns the index
stream and the initial symbol list `sorted(set(data))`. -/
def mft_encode (data : List Nat) : List Nat × List Nat :=
  let symbols := py_sorted_set data
  (mft_encode_loop symbols data, symbols)

/-- Embedding of the decoding loop of `mft_decode` (mtf.py lines 72-83):
an out-of-range index raises (`none`), otherwise the byte at the index is
emitted and moved to the front. -/
def mft_decode_loop (mtf_list : List Nat) : List Nat → Option (List Nat)
  | [] => some []
  | index :: rest =>
    if h : index < mtf_list.length then
      let char := mtf_list.get ⟨index, h⟩
      (mft_decode_loop (char :: mtf_list.eraseIdx index) rest).map
        (fun d => char :: d)
    else
      none

/-- Embedding of `mft_decode` (mtf.py lines 55-86).  The final statement of
the source is `return ''.join(decoded)`: joining the empty list yields the
empty string, but joining a non-empty list of ints (which is what the
decoding loop produces when the symbols are byte values, as in this
pipeline) raises `TypeError`.  The empty string result is represented as the
empty byte list, since downstream code only iterates over it. -/
def mft_decode (encoded : List Nat) (symbols : List Nat) : Option (List Nat) :=
  match mft_decode_loop symbols encoded with
  | none => none
  | some decoded => if decoded.isEmpty then some [] else none

/-- C3 (code bug).  Evaluating the MTF round-trip at the failing input
`[0]`: `mft_encode [0] = ([0], [0])`, and `mft_decode [0] [0]` raises
`TypeError` at `''.join` (the decoded characters are ints, not strings)
instead of returning `[0]`. -/
theorem mft_roundtrip_failure :
    mft_encode [0] = ([0], [0]) ∧
      mft_decode (mft_encode [0]).1 (mft_encode [0]).2 = none := by
  constructor <;> rfl

/-- Counterexample for C9 as stated: for the input `[1, 0]` the symbols
list returned by `mft_encode` is `[0, 1]` (increasing numeric order), not
the first-appearance order `[1, 0]`. -/
theorem mft_symbols_counterexample :
    (mft_encode [1, 0]).2 = [0, 1] ∧ (mft_encode [1, 0]).2 ≠ [1, 0] := by
  constructor <;> decide

/-- C9 (corrected).  The symbols list returned by `mft_encode` is the
distinct bytes of the input sorted in strictly increasing numeric order
(Python `sorted(set(data))`), not in first-appearance order. -/
theorem mft_symbols_sorted (data : List Nat) :
    (mft_encode data).2.Sorted (· < ·) ∧
      ∀ b, b ∈ (mft_encode data).2 ↔ b ∈ data := by
  have hperm : (py_sorted_set data).Perm data.dedup :=
    List.perm_insertionSort (· ≤ ·) data.dedup
  constructor
  · have hnd : (py_sorted_set data).Nodup := hperm.nodup_iff.2 data.nodup_dedup
    have hsorted : (py_sorted_set data).Sorted (· ≤ ·) :=
      List.sorted_insertionSort (· ≤ ·) data.dedup
    exact hsorted.lt_of_le hnd
  · intro b
    rw [show (mft_encode data).2 = py_sorted_set data from rfl, hperm.mem_iff,
      List.mem_dedup]

/-! ## Arithmetic coding, from `src/project/utils/algorithms/arithmetic.py` -/

/-- Embedding of `struct.pack("!I", n)` (arithmetic.py line 115): the
4-byte big-endian encoding of an unsigned 32-bit integer. -/
def be32 (n : Nat) : List Nat :=
  [n / 2 ^ 24 % 256, n / 2 ^ 16 % 256, n / 2 ^ 8 % 256, n % 256]

/-- Embedding of Python `max(data)` (arithmetic.py line 87) for non-empty
lists; the default 0 is never used by `arithmetic_encode`, which raises on
the empty list before taking the maximum. -/
def py_max : List Nat → Nat
  | [] => 0
  | a :: rest => rest.foldl Nat.max a

/-- Embedding of `arithmetic_encode` (arithmetic.py lines 74-119).
Modelled from the spec: the classes `FlatFrequencyTable`,
`SimpleFrequencyTable`, `ArithmeticEncoder` come from
`utils.algorithms.coders.arithmethic_coder`, a module that is not in the
source tree; per the specification they implement an adaptive order-0
32-bit arithmetic coder whose output bits are packed MSB-first by the
`OutputStream` class.  Since no claim depends on the coded bit stream
itself, that whole stage (`enc.write` over the data, the EOF symbol,
`enc.finish()`, `bitout.getbytes()`) is abstracted as the parameter
`coder`, mapping the data and the alphabet size `num_symbols` to the
compressed payload bytes.  What remains is faithful to the source:
`max(data)` raises `ValueError` on an empty list (hence `none`),
`num_symbols = max_symbol + 2`, and the result is
`struct.pack("!I", num_symbols) + compressed_data`. -/
def arithmetic_encode (coder : List Nat → Nat → List Nat)
    (data : List Nat) : Option (List Nat) :=
  match data with
  | [] => none
  | a :: rest =>
    let max_symbol := rest.foldl Nat.max a
    let num_symbols := max_symbol + 2
    let compressed_data := coder data num_symbols
    some (be32 num_symbols ++ compressed_data)

/-- C10.  The arithmetic back-end fails on the empty input list: Python
`max(data)` raises `ValueError` before anything else happens, so no payload
is ever produced for empty input, whatever the coder does. -/
theorem arithmetic_encode_empty (coder : List Nat → Nat → List Nat) :
    arithmetic_encode coder [] = none := rfl

/-- Counterexample for C8 as stated: for the input `[1]` the 4-byte header
written by `arithmetic_encode` is `be32 3` (so the value 3), not
`be32 (max + 1) = be32 2` as the claim's formula `M = max(input) + 1`
requires. -/
theorem arithmetic_header_counterexample :
    (arithmetic_encode (fun _ _ => []) [1]).map (List.take 4) = some (be32 3) ∧
      be32 3 ≠ be32 (1 + 1) := by
  constructor <;> decide

/-- C8 (corrected).  For every non-empty input the 4-byte big-endian
header written by `arithmetic_encode` equals `max(input) + 2`: the size of
the coding alphabet `0 .. max+1` including the EOF sentinel `max + 1` (the
source adds 2, writing the symbol count, not the EOF symbol value). -/
theorem arithmetic_header (coder : List Nat → Nat → List Nat)
    (data : List Nat) (h : data ≠ []) :
    (arithmetic_encode coder data).map (List.take 4) =
      some (be32 (py_max data + 2)) := by
  cases data with
  | nil => exact absurd rfl h
  | cons a rest =>
    simp only [arithmetic_encode, py_max, Option.map_some']
    rw [List.take_append_of_le_length (by simp [be32])]
    simp [be32]

/-- Witness for C8 at the input `[0]`: the header is `be32 2`. -/
theorem arithmetic_header_witness :
    ([0] : List Nat) ≠ [] ∧
      (arithmetic_encode (fun _ _ => []) [0]).map (List.take 4) =
        some (be32 (py_max [0] + 2)) :=
  ⟨by decide, arithmetic_header (fun _ _ => []) [0] (by decide)⟩

/-! ## SBWT, from `src/project/utils/algorithms/sbwt.py`

The keyed alphabet order `generate_order_from_key` (sbwt.py lines 67-97)
hashes each distinct byte with SHA-256 under the key and ranks the bytes by
hash value; the resulting dict is an injective map from the bytes of the
buffer to ranks, determined by the byte set and the key alone.  It is
abstracted here as a function parameter `ord_ : Nat → Nat` (used only on
bytes of the data): every dict the source can produce is the restriction of
such a function, and encode and decode obtain the same dict because the last
column is a permutation of the terminated input. -/

/-- Embedding of the sort key of `build_suffix_array` (sbwt.py lines 42-45):
the pair `(suffix_ranks[i], suffix_ranks[i + step_size])`, with `-1` when
`i + step_size` falls off the end.  Python compares these tuples
lexicographically. -/
def sa_key (suffix_ranks : List Nat) (length step_size i : Nat) : Nat × Int :=
  (suffix_ranks.getD i 0,
    if i + step_size < length then (suffix_ranks.getD (i + step_size) 0 : Int)
    else -1)

/-- Lexicographic strict order on the sort keys, as Python compares
2-tuples. -/
def pair_lt (a b : Nat × Int) : Prop :=
  a.1 < b.1 ∨ (a.1 = b.1 ∧ a.2 < b.2)

/-- Lexicographic non-strict order on the sort keys. -/
def pair_le (a b : Nat × Int) : Prop :=
  a.1 < b.1 ∨ (a.1 = b.1 ∧ a.2 ≤ b.2)

instance : DecidableRel pair_lt := fun a b => by
  unfold pair_lt; infer_instance

instance : DecidableRel pair_le := fun a b => by
  unfold pair_le; infer_instance

/-- Embedding of `suffix_array.sort(key=...)` (sbwt.py line 42): a stable
sort of the index list by key order (Python's list.sort is stable; so is
insertion sort). -/
def sort_by_key (k : Nat → Nat × Int) (l : List Nat) : List Nat :=
  List.insertionSort (fun i j => pair_le (k i) (k j)) l

/-- Embedding of the rank-update scan of `build_suffix_array` (sbwt.py
lines 48-56): walk the sorted suffix array, incrementing the dense rank
whenever the sort key changes, and store each index's rank. -/
def update_ranks_go (k : Nat → Nat × Int) :
    List Nat → Nat → Nat → List Nat → List Nat
  | [], _, _, acc => acc
  | curr :: rest, prev, new_rank, acc =>
    let nr := if k prev ≠ k curr then new_rank + 1 else new_rank
    update_ranks_go k rest curr nr (acc.set curr nr)

/-- Initialisation of the rank-update scan: `temp_ranks = [0] * length`,
rank 0 for the first sorted index (sbwt.py lines 48-50). -/
def update_ranks (k : Nat → Nat × Int) (sorted_sa : List Nat)
    (length : Nat) : List Nat :=
  match sorted_sa with
  | [] => List.replicate length 0
  | first :: rest =>
    update_ranks_go k rest first 0 ((List.replicate length 0).set first 0)

/-- Embedding of the `while step_size < length` loop of
`build_suffix_array` (sbwt.py lines 40-60): sort by the current key, rebuild
dense ranks, double the step. -/
def bsa_loop (length : Nat) (suffix_ranks : List Nat)
    (suffix_array : List Nat) (step_size : Nat) (hstep : 0 < step_size) :
    List Nat :=
  if h : step_size < length then
    let k := sa_key suffix_ranks length step_size
    let sorted_sa := sort_by_key k suffix_array
    let temp_ranks := update_ranks k sorted_sa length
    bsa_loop length temp_ranks sorted_sa (step_size * 2) (by omega)
  else
    suffix_array
termination_by length - step_size
decreasing_by omega

lemma bsa_loop_exit (length : Nat) (suffix_ranks suffix_array : List Nat)
    (step_size : Nat) (hstep : 0 < step_size) (h : ¬ step_size < length) :
    bsa_loop length suffix_ranks suffix_array step_size hstep =
      suffix_array := by
  rw [bsa_loop, dif_neg h]

lemma bsa_loop_step (length : Nat) (suffix_ranks suffix_array : List Nat)
    (step_size : Nat) (hstep : 0 < step_size) (h : step_size < length) :
    bsa_loop length suffix_ranks suffix_array step_size hstep =
      bsa_loop length
        (update_ranks (sa_key suffix_ranks length step_size)
          (sort_by_key (sa_key suffix_ranks length step_size) suffix_array)
          length)
        (sort_by_key (sa_key suffix_ranks length step_size) suffix_array)
        (step_size * 2) (by omega) := by
  rw [bsa_loop, dif_pos h]

/-- Embedding of `build_suffix_array` (sbwt.py lines 19-63):
`suffix_ranks` starts as the custom order of each byte, `suffix_array` as
`range(length)`. -/
def build_suffix_array (custom_order : Nat → Nat) (data : List Nat) :
    List Nat :=
  bsa_loop data.length (data.map custom_order) (List.range data.length) 1
    (by omega)

/-- Embedding of `sbwt_encode` (sbwt.py lines 128-157): append the
terminator 255 only when the data does not already end with 255, build the
suffix array under the keyed order, emit the last column
`data[(idx - 1) % n]` and the position of 0 in the suffix array. -/
def sbwt_encode (ord_ : Nat → Nat) (data : List Nat) : List Nat × Nat :=
  let data2 := if data.getLast? = some 255 then data else data ++ [255]
  let suffix_array := build_suffix_array ord_ data2
  let n := suffix_array.length
  let last_column := suffix_array.map (fun idx => data2.getD ((idx + n - 1) % n) 0)
  let orig_ptr := suffix_array.indexOf 0
  (last_column, orig_ptr)

/-- Embedding of Python dict/Counter key iteration (sbwt.py line 179):
`Counter(last_column).keys()` iterates distinct values in first-appearance
order. -/
def py_first_dedup (l : List Nat) : List Nat :=
  l.foldl (fun acc a => if a ∈ acc then acc else acc ++ [a]) []

/-- Embedding of `sorted(count.keys(), key=lambda x: custom_order[x])`
(sbwt.py line 184). -/
def sorted_chars (ord_ : Nat → Nat) (L : List Nat) : List Nat :=
  List.insertionSort (fun a b => ord_ a ≤ ord_ b) (py_first_dedup L)

/-- Embedding of the cumulative-count accumulation of `sbwt_decode`
(sbwt.py lines 182-186): pair each character of the sorted alphabet with
the running total of counts of the characters before it. -/
def cum_go (L : List Nat) : List Nat → Nat → List (Nat × Nat)
  | [], _ => []
  | c :: rest, total => (c, total) :: cum_go L rest (total + L.count c)

/-- Lookup in the cumulative-count dict.  The default 0 models the
(unreachable for characters of `L`) `KeyError` case. -/
def cumulative_count (ord_ : Nat → Nat) (L : List Nat) (c : Nat) : Nat :=
  ((cum_go L (sorted_chars ord_ L) 0).lookup c).getD 0

/-- Embedding of the `t`-array construction of `sbwt_decode` (sbwt.py
lines 189-194): for each position `idx` of the last column, store `idx` at
slot `cumulative_count[char] + next_pos[char]` and bump `next_pos[char]`
(a `defaultdict(int)`, modelled as a function). -/
def build_t_go (cum : Nat → Nat) :
    List Nat → Nat → (Nat → Nat) → List Nat → List Nat
  | [], _, _, t => t
  | char :: rest, idx, next_pos, t =>
    build_t_go cum rest (idx + 1)
      (fun c => if c = char then next_pos c + 1 else next_pos c)
      (t.set (cum char + next_pos char) idx)

/-- The complete `t` array of `sbwt_decode`: start from `[0] * n`. -/
def build_t (cum : Nat → Nat) (L : List Nat) : List Nat :=
  build_t_go cum L 0 (fun _ => 0) (List.replicate L.length 0)

/-- Embedding of the reconstruction loop of `sbwt_decode` (sbwt.py lines
197-201): `n - 1` times set `idx = t[idx]` and emit `last_column[idx]`;
an out-of-range index access raises (`none`). -/
def decode_loop (t L : List Nat) : Nat → Nat → Option (List Nat)
  | 0, _ => some []
  | steps + 1, idx =>
    match t.get? idx with
    | none => none
    | some idx2 =>
      match L.get? idx2 with
      | none => none
      | some c => (decode_loop t L steps idx2).map (fun d => c :: d)

/-- Embedding of `sbwt_decode` (sbwt.py lines 161-208): rebuild the keyed
order from the last column (same `ord_`, since the byte set is unchanged),
build cumulative counts and the `t` array, run the loop `n - 1` times from
`orig_ptr`, then strip one trailing 255 if present.  Note the source never
checks that the last column contains a terminator. -/
def sbwt_decode (ord_ : Nat → Nat) (last_column : List Nat)
    (orig_ptr : Nat) : Option (List Nat) :=
  let cum := cumulative_count ord_ last_column
  let t := build_t cum last_column
  match decode_loop t last_column (last_column.length - 1) orig_ptr with
  | none => none
  | some decoded =>
    some (if decoded.getLast? = some 255 then decoded.dropLast else decoded)

lemma build_t_go_length (cum : Nat → Nat) (l : List Nat) :
    ∀ (idx : Nat) (np : Nat → Nat) (t : List Nat),
      (build_t_go cum l idx np t).length = t.length := by
  induction l with
  | nil => intro idx np t; rfl
  | cons c rest ih =>
    intro idx np t
    rw [build_t_go, ih]
    simp

lemma build_t_go_mem (cum : Nat → Nat) (n : Nat) (l : List Nat) :
    ∀ (idx : Nat) (np : Nat → Nat) (t : List Nat),
      (∀ e ∈ t, e < n) → idx + l.length ≤ n →
      ∀ e ∈ build_t_go cum l idx np t, e < n := by
  induction l with
  | nil => intro idx np t h1 _ e he; exact h1 e he
  | cons c rest ih =>
    intro idx np t h1 h2 e he
    refine ih (idx + 1) _ _ ?_ (by simp at h2 ⊢; omega) e he
    intro x hx
    rcases List.mem_or_eq_of_mem_set hx with hx | rfl
    · exact h1 x hx
    · simp at h2; omega

lemma build_t_length (cum : Nat → Nat) (L : List Nat) :
    (build_t cum L).length = L.length := by
  rw [build_t, build_t_go_length]
  simp

lemma build_t_mem (cum : Nat → Nat) (L : List Nat) :
    ∀ e ∈ build_t cum L, e < L.length := by
  refine build_t_go_mem cum L.length L 0 _ _ ?_ (by omega)
  intro e he
  rcases List.eq_of_mem_replicate he with rfl
  rcases Nat.eq_zero_or_pos L.length with h0 | h0
  · rw [h0] at he; simp at he
  · exact h0

lemma decode_loop_isSome (t L : List Nat) (hlen : t.length = L.length)
    (hmem : ∀ e ∈ t, e < L.length) :
    ∀ (steps idx : Nat), idx < L.length →
      (decode_loop t L steps idx).isSome = true := by
  intro steps
  induction steps with
  | zero => intro idx _; rfl
  | succ k ih =>
    intro idx hidx
    have hidx' : idx < t.length := by omega
    have hmem2 : t.get ⟨idx, hidx'⟩ < L.length := hmem _ (t.get_mem _ _)
    rw [decode_loop, List.get?_eq_get hidx']
    show (match L.get? (t.get ⟨idx, hidx'⟩) with
      | none => none
      | some c =>
        Option.map (fun d => c :: d)
          (decode_loop t L k (t.get ⟨idx, hidx'⟩))).isSome = true
    rw [List.get?_eq_get hmem2]
    show (Option.map _ (decode_loop t L k (t.get ⟨idx, hidx'⟩))).isSome = true
    rw [Option.isSome_map']
    exact ih _ hmem2

/-- Counterexample for C6 as stated: a last column `[97, 98]` with no 255
terminator and in-range pointer 0 does not make `sbwt_decode` fail — it
silently returns a decoded byte sequence, whichever of the two possible
keyed orders of the alphabet set the key produces. -/
theorem sbwt_decode_no_terminator_counterexample :
    sbwt_decode (fun c => c) [97, 98] 0 = some [97] ∧
      sbwt_decode (fun c => 255 - c) [97, 98] 0 = some [98] := by
  constructor <;> decide

/-- C6 (corrected).  `sbwt_decode` performs no terminator validation: for
any in-range `orig_ptr < len L` it returns a decoded sequence whether or not
`L` contains a 255 (first conjunct).  For `orig_ptr ≥ len L` it fails with
an IndexError at `t[idx]` provided `len L ≥ 2` (second conjunct); when
`len L ≤ 1` the reconstruction loop runs zero times and the function
silently returns the empty sequence for every `orig_ptr` (third
conjunct). -/
theorem sbwt_decode_failure_semantics (ord_ : Nat → Nat) (L : List Nat)
    (p : Nat) :
    (p < L.length → (sbwt_decode ord_ L p).isSome = true) ∧
      (2 ≤ L.length → L.length ≤ p → sbwt_decode ord_ L p = none) ∧
      (L.length ≤ 1 → (sbwt_decode ord_ L p).isSome = true) := by
  refine ⟨?_, ?_, ?_⟩
  · intro hp
    rw [sbwt_decode]
    have h := decode_loop_isSome (build_t (cumulative_count ord_ L) L) L
      (build_t_length _ _) (build_t_mem _ _) (L.length - 1) p hp
    rcases Option.isSome_iff_exists.1 h with ⟨d, hd⟩
    rw [hd]
    rfl
  · intro h2 hp
    rw [sbwt_decode]
    have hsteps : L.length - 1 = (L.length - 2) + 1 := by omega
    rw [hsteps, decode_loop]
    have : (build_t (cumulative_count ord_ L) L).get? p = none := by
      rw [List.get?_eq_none]
      rw [build_t_length]
      omega
    rw [this]
  · intro h1
    rw [sbwt_decode]
    have hsteps : L.length - 1 = 0 := by omega
    rw [hsteps]
    rfl

/-- Witness for C6: with the identity order, decoding the terminator-free
column `[97, 98]` from pointer 0 succeeds, and decoding it from the
out-of-range pointer 5 fails. -/
theorem sbwt_decode_failure_semantics_witness :
    ((sbwt_decode (fun c => c) [97, 98] 0).isSome = true) ∧
      sbwt_decode (fun c => c) [97, 98] 5 = none :=
  ⟨(sbwt_decode_failure_semantics (fun c => c) [97, 98] 0).1 (by decide),
    (sbwt_decode_failure_semantics (fun c => c) [97, 98] 5).2.1 (by decide)
      (by decide)⟩

/-- Counterexample for C2 as stated: for the input `[255]`, which already
ends with the byte 255, `sbwt_encode` appends no terminator; the decoder
then runs its loop `n - 1 = 0` times and returns the empty sequence instead
of `[255]`.  The input has a one-byte alphabet, so this holds for the order
derived from any key. -/
theorem sbwt_roundtrip_counterexample :
    sbwt_decode (fun c => c) (sbwt_encode (fun c => c) [255]).1
        (sbwt_encode (fun c => c) [255]).2 = some [] ∧
      (some [] : Option (List Nat)) ≠ some [255] := by
  have hsa : build_suffix_array (fun c => c) [255] = [0] := by
    rw [build_suffix_array, bsa_loop_exit]
    · rfl
    · decide
  have henc : sbwt_encode (fun c => c) [255] = ([255], 0) := by
    simp only [sbwt_encode]
    norm_num [hsa]
  rw [henc]
  constructor <;> decide

/-! ### Suffix order machinery for the correctness proof of
`build_suffix_array`.

The doubling loop of the source maintains dense ranks of the suffixes
truncated to the current step size; `mtr` is that truncated suffix (with
bytes replaced by their keyed ranks) and `msfx` the full one.  The sort key
comparison of the source is the lexicographic order on `(rank, next rank)`
pairs, `pair_lt` / `pair_le` above. -/

/-- Mapped suffix of the data starting at `i`: bytes replaced by keyed
ranks. -/
def msfx (ord_ : Nat → Nat) (d : List Nat) (i : Nat) : List Nat :=
  (d.drop i).map ord_

/-- Mapped suffix truncated to length `s`. -/
def mtr (ord_ : Nat → Nat) (d : List Nat) (s i : Nat) : List Nat :=
  ((d.drop i).take s).map ord_

/-- Strict lexicographic order of mapped suffixes — the order the suffix
array must realise. -/
def slt (ord_ : Nat → Nat) (d : List Nat) (i j : Nat) : Prop :=
  List.Lex (· < ·) (msfx ord_ d i) (msfx ord_ d j)

lemma mtr_length (ord_ : Nat → Nat) (d : List Nat) (s i : Nat) :
    (mtr ord_ d s i).length = min s (d.length - i) := by
  simp [mtr]

lemma msfx_length (ord_ : Nat → Nat) (d : List Nat) (i : Nat) :
    (msfx ord_ d i).length = d.length - i := by
  simp [msfx]

lemma mtr_eq_msfx (ord_ : Nat → Nat) (d : List Nat) (s i : Nat)
    (h : d.length - i ≤ s) : mtr ord_ d s i = msfx ord_ d i := by
  rw [mtr, msfx, List.take_of_length_le (by simp; omega)]

lemma mtr_split (ord_ : Nat → Nat) (d : List Nat) (s t i : Nat) :
    mtr ord_ d (s + t) i = mtr ord_ d s i ++ mtr ord_ d t (i + s) := by
  rw [mtr, mtr, mtr, List.take_add, List.map_append, List.drop_drop]

lemma mtr_nil_iff (ord_ : Nat → Nat) (d : List Nat) (s i : Nat) :
    mtr ord_ d s i = [] ↔ s = 0 ∨ d.length ≤ i := by
  constructor
  · intro h
    have := congrArg List.length h
    rw [mtr_length] at this
    simp at this
    omega
  · intro h
    have : (mtr ord_ d s i).length = 0 := by rw [mtr_length]; omega
    exact List.eq_nil_of_length_eq_zero this

lemma mtr_eq_len (ord_ : Nat → Nat) (d : List Nat) (s : Nat) {i j : Nat}
    (hij : mtr ord_ d s i = mtr ord_ d s j) (hi : i < d.length)
    (hj : j < d.length) (hshort : (mtr ord_ d s i).length < s) : i = j := by
  have h1 := mtr_length ord_ d s i
  have h2 := congrArg List.length hij
  rw [mtr_length, mtr_length] at h2
  omega

/-! Facts about the key-pair order. -/

lemma pair_le_total (a b : Nat × Int) : pair_le a b ∨ pair_le b a := by
  unfold pair_le; omega

lemma pair_le_trans {a b c : Nat × Int} (h1 : pair_le a b) (h2 : pair_le b c) :
    pair_le a c := by
  unfold pair_le at *; omega

lemma pair_le_antisymm {a b : Nat × Int} (h1 : pair_le a b)
    (h2 : pair_le b a) : a = b := by
  unfold pair_le at *
  have h3 : a.1 = b.1 := by omega
  have h4 : a.2 = b.2 := by omega
  exact Prod.ext h3 h4

lemma pair_lt_of_le_of_ne {a b : Nat × Int} (h1 : pair_le a b)
    (h2 : a ≠ b) : pair_lt a b := by
  unfold pair_le at h1
  unfold pair_lt
  rcases h1 with h | ⟨h1, h2'⟩
  · omega
  · rcases lt_or_eq_of_le h2' with h | h
    · omega
    · exact absurd (Prod.ext h1 h) h2

lemma pair_lt_irrefl (a : Nat × Int) : ¬ pair_lt a a := by
  unfold pair_lt; omega

lemma pair_lt_asymm {a b : Nat × Int} (h : pair_lt a b) : ¬ pair_lt b a := by
  unfold pair_lt at *; omega

lemma pair_lt_trichotomy (a b : Nat × Int) :
    pair_lt a b ∨ a = b ∨ pair_lt b a := by
  unfold pair_lt
  rcases Nat.lt_trichotomy a.1 b.1 with h | h | h
  · omega
  · rcases Int.lt_trichotomy a.2 b.2 with h2 | h2 | h2
    · omega
    · exact Or.inr (Or.inl (Prod.ext h h2))
    · omega
  · omega

lemma pair_le_of_lt {a b : Nat × Int} (h : pair_lt a b) : pair_le a b := by
  unfold pair_lt at h; unfold pair_le; omega

/-! Facts about lexicographic order of `Nat` lists. -/

lemma lex_append_iff (a b1 b2 : List Nat) :
    List.Lex (· < ·) (a ++ b1) (a ++ b2) ↔ List.Lex (· < ·) b1 b2 := by
  induction a with
  | nil => rfl
  | cons x rest ih =>
    simp only [List.cons_append]
    rw [List.Lex.cons_iff]
    exact ih

lemma lex_irrefl (l : List Nat) : ¬ List.Lex (· < ·) l l := fun h =>
  (List.Lex.isAsymm (α := Nat) (· < ·)).asymm l l h h

lemma lex_asymm {l1 l2 : List Nat} (h : List.Lex (· < ·) l1 l2) :
    ¬ List.Lex (· < ·) l2 l1 :=
  (List.Lex.isAsymm (α := Nat) (· < ·)).asymm l1 l2 h

lemma lex_append_of_lex {A B : List Nat} (h : List.Lex (· < ·) A B)
    (hpre : ∀ t, A ++ t = B → False) (C D : List Nat) :
    List.Lex (· < ·) (A ++ C) (B ++ D) := by
  induction h with
  | nil =>
    rename_i b l
    exact absurd (by simp) (hpre (b :: l))
  | @cons a l1 l2 h ih =>
    simp only [List.cons_append]
    exact List.Lex.cons (ih (fun t ht => hpre t (by simp [ht])))
  | @rel a l1 b l2 hr =>
    simp only [List.cons_append]
    exact List.Lex.rel hr

lemma lex_append_of_lex_nilright {A B : List Nat}
    (h : List.Lex (· < ·) A B) (C : List Nat)
    (hC : (∃ t, t ≠ [] ∧ A ++ t = B) → C = []) (D : List Nat) :
    List.Lex (· < ·) (A ++ C) (B ++ D) := by
  by_cases hpre : ∃ t, t ≠ [] ∧ A ++ t = B
  · rcases hpre with ⟨t, htne, rfl⟩
    rw [hC ⟨t, htne, rfl⟩, List.append_nil]
    have h2 : List.Lex (· < ·) (A ++ []) (A ++ (t ++ D)) := by
      refine (lex_append_iff A [] (t ++ D)).2 ?_
      cases t with
      | nil => exact absurd rfl htne
      | cons u us => exact List.Lex.nil
    simpa using h2
  · refine lex_append_of_lex h ?_ C D
    intro t ht
    cases t with
    | nil =>
      simp only [List.append_nil] at ht
      subst ht
      exact lex_irrefl A h
    | cons u us => exact hpre ⟨u :: us, by simp, ht⟩

lemma lex_singleton_iff (a b : Nat) :
    List.Lex (· < ·) [a] [b] ↔ a < b := List.Lex.singleton_iff a b

lemma pair_le_refl (a : Nat × Int) : pair_le a a := by
  unfold pair_le; omega

lemma pair_le_lt_trans {a b c : Nat × Int} (h1 : pair_le a b)
    (h2 : pair_lt b c) : pair_lt a c := by
  unfold pair_le at h1; unfold pair_lt at *; omega

lemma getD_set_self (l : List Nat) (i v : Nat) (h : i < l.length) :
    (l.set i v).getD i 0 = v := by
  simp [List.getD, List.getElem?_set_self, h]

lemma getD_set_ne (l : List Nat) (i v j : Nat) (h : i ≠ j) :
    (l.set i v).getD j 0 = l.getD j 0 := by
  simp [List.getD, List.getElem?_set_ne h]

/-- Characterisation of a rank array relative to a key function: on the
index set `S`, rank comparisons coincide with key comparisons. -/
def rank_char (k : Nat → Nat × Int) (r : List Nat) (S : List Nat) : Prop :=
  ∀ i ∈ S, ∀ j ∈ S,
    (r.getD i 0 < r.getD j 0 ↔ pair_lt (k i) (k j)) ∧
    (r.getD i 0 = r.getD j 0 ↔ k i = k j)

lemma update_ranks_go_spec (k : Nat → Nat × Int) (n : Nat) :
    ∀ (l done : List Nat) (prev cur : Nat) (acc : List Nat),
      acc.length = n →
      (done ++ prev :: l).Nodup →
      (∀ x ∈ done ++ prev :: l, x < n) →
      (done ++ prev :: l).Pairwise (fun i j => pair_le (k i) (k j)) →
      rank_char k acc (done ++ [prev]) →
      acc.getD prev 0 = cur →
      (∀ i ∈ done ++ [prev], acc.getD i 0 ≤ cur) →
      rank_char k (update_ranks_go k l prev cur acc) (done ++ prev :: l) ∧
        (update_ranks_go k l prev cur acc).length = n := by
  intro l
  induction l with
  | nil =>
    intro done prev cur acc hlen _ _ _ hchar _ _
    exact ⟨hchar, hlen⟩
  | cons curr rest ih =>
    intro done prev cur acc hlen hnd hbd hpw hchar hprev hmax
    have hassoc : done ++ prev :: curr :: rest =
        (done ++ [prev]) ++ curr :: rest := by simp
    have hcurr_n : curr < n := hbd curr (by simp)
    have hnd' : ((done ++ [prev]) ++ curr :: rest).Nodup := by
      rw [← hassoc]; exact hnd
    have hcurr_not : curr ∉ done ++ [prev] := by
      rcases List.nodup_append.mp hnd' with ⟨_, _, hdisj⟩
      intro hmem
      exact hdisj hmem (by simp)
    have hpw' : ((done ++ [prev]) ++ curr :: rest).Pairwise
        (fun i j => pair_le (k i) (k j)) := by
      rw [← hassoc]; exact hpw
    have hple_prev_curr : pair_le (k prev) (k curr) := by
      have h2 := (List.pairwise_append.mp hpw).2.1
      exact (List.pairwise_cons.mp h2).1 curr (by simp)
    have hle_prev : ∀ i ∈ done ++ [prev], pair_le (k i) (k prev) := by
      intro i hi
      have hc := hchar i hi prev (by simp)
      have hle := hmax i hi
      rw [hprev] at hc
      rcases Nat.lt_or_ge (acc.getD i 0) cur with hlt | hge
      · exact pair_le_of_lt (hc.1.mp hlt)
      · have heq : acc.getD i 0 = cur := by omega
        rw [(hc.2.mp heq)]
        exact pair_le_refl _
    simp only [update_ranks_go]
    set nr := if k prev ≠ k curr then cur + 1 else cur with hnr
    set acc2 := acc.set curr nr with hacc2
    have hget_old : ∀ i ∈ done ++ [prev], acc2.getD i 0 = acc.getD i 0 := by
      intro i hi
      exact getD_set_ne acc curr nr i (fun hh => hcurr_not (hh ▸ hi))
    have hget_curr : acc2.getD curr 0 = nr :=
      getD_set_self acc curr nr (by omega)
    have hnr_ge : cur ≤ nr := by
      rw [hnr]; split <;> omega
    have hchar2 : rank_char k acc2 ((done ++ [prev]) ++ [curr]) := by
      intro i hi j hj
      rcases List.mem_append.mp hi with hi' | hi' <;>
        rcases List.mem_append.mp hj with hj' | hj'
      · rw [hget_old i hi', hget_old j hj']
        exact hchar i hi' j hj'
      · have hj2 : j = curr := by simpa using hj'
        rw [hj2, hget_old i hi', hget_curr]
        by_cases hk : k prev = k curr
        · have hnr_eq : nr = cur := by rw [hnr, if_neg (by simpa using hk)]
          have hc := hchar i hi' prev (by simp)
          rw [hprev] at hc
          rw [hnr_eq, ← hk]
          exact hc
        · have hnr_eq : nr = cur + 1 := by rw [hnr, if_pos hk]
          have hlt_pc : pair_lt (k prev) (k curr) :=
            pair_lt_of_le_of_ne hple_prev_curr hk
          have hlt_ic : pair_lt (k i) (k curr) :=
            pair_le_lt_trans (hle_prev i hi') hlt_pc
          constructor
          · exact iff_of_true (by have := hmax i hi'; omega) hlt_ic
          · refine iff_of_false (by have := hmax i hi'; omega) ?_
            intro hik
            exact pair_lt_irrefl _ (hik ▸ hlt_ic)
      · have hi2 : i = curr := by simpa using hi'
        rw [hi2, hget_old j hj', hget_curr]
        by_cases hk : k prev = k curr
        · have hnr_eq : nr = cur := by rw [hnr, if_neg (by simpa using hk)]
          have hc := hchar prev (by simp) j hj'
          rw [hprev] at hc
          rw [hnr_eq, ← hk]
          exact hc
        · have hnr_eq : nr = cur + 1 := by rw [hnr, if_pos hk]
          have hlt_pc : pair_lt (k prev) (k curr) :=
            pair_lt_of_le_of_ne hple_prev_curr hk
          have hlt_jc : pair_lt (k j) (k curr) :=
            pair_le_lt_trans (hle_prev j hj') hlt_pc
          constructor
          · refine iff_of_false (by have := hmax j hj'; omega) ?_
            intro hcj
            exact pair_lt_asymm hlt_jc hcj
          · refine iff_of_false (by have := hmax j hj'; omega) ?_
            intro hcj
            exact pair_lt_irrefl _ (hcj ▸ hlt_jc)
      · have hi2 : i = curr := by simpa using hi'
        have hj2 : j = curr := by simpa using hj'
        rw [hi2, hj2]
        exact ⟨iff_of_false (by omega) (pair_lt_irrefl _), by simp⟩
    have hmax2 : ∀ i ∈ (done ++ [prev]) ++ [curr], acc2.getD i 0 ≤ nr := by
      intro i hi
      rcases List.mem_append.mp hi with hi' | hi'
      · rw [hget_old i hi']
        have := hmax i hi'
        omega
      · have hi2 : i = curr := by simpa using hi'
        subst hi2
        rw [hget_curr]
    have hres := ih ((done ++ [prev])) curr nr acc2 (by rw [hacc2]; simp [hlen])
      (by rw [← hassoc]; exact hnd) (by rw [← hassoc]; exact hbd)
      (by rw [← hassoc]; exact hpw) hchar2 hget_curr hmax2
    rw [← hassoc] at hres
    exact hres

lemma update_ranks_spec (k : Nat → Nat × Int) (n : Nat)
    (sorted_sa : List Nat) (hperm : sorted_sa.Perm (List.range n))
    (hpw : sorted_sa.Pairwise (fun i j => pair_le (k i) (k j))) :
    rank_char k (update_ranks k sorted_sa n) sorted_sa ∧
      (update_ranks k sorted_sa n).length = n := by
  cases sorted_sa with
  | nil =>
    constructor
    · intro i hi
      exact absurd hi (by simp)
    · simp [update_ranks]
  | cons first rest =>
    have hnd : (first :: rest).Nodup := hperm.nodup_iff.mpr (List.nodup_range n)
    have hbd : ∀ x ∈ first :: rest, x < n := by
      intro x hx
      have := hperm.mem_iff.mp hx
      simpa using this
    have hfirst_n : first < n := hbd first (by simp)
    rw [update_ranks]
    refine (update_ranks_go_spec k n rest [] first 0 _
      (by simp) (by simpa using hnd) (by simpa using hbd) (by simpa using hpw)
      ?_ ?_ ?_).imp (fun h => by simpa using h) (fun h => h)
    · intro i hi j hj
      have hi2 : i = first := by simpa using hi
      have hj2 : j = first := by simpa using hj
      rw [hi2, hj2]
      exact ⟨iff_of_false (by omega) (pair_lt_irrefl _), by simp⟩
    · exact getD_set_self _ first 0 (by simpa using hfirst_n)
    · intro i hi
      have hi2 : i = first := by simpa using hi
      rw [hi2, getD_set_self _ first 0 (by simpa using hfirst_n)]

/-- Invariant of the doubling loop: the rank array `r` orders indices
exactly as their mapped suffixes truncated to the current step `s`. -/
def rank_inv (ord_ : Nat → Nat) (d : List Nat) (s : Nat) (r : List Nat) :
    Prop :=
  r.length = d.length ∧
  ∀ i < d.length, ∀ j < d.length,
    (r.getD i 0 < r.getD j 0 ↔
      List.Lex (· < ·) (mtr ord_ d s i) (mtr ord_ d s j)) ∧
    (r.getD i 0 = r.getD j 0 ↔ mtr ord_ d s i = mtr ord_ d s j)

lemma mtr_take (ord_ : Nat → Nat) (d : List Nat) (s i : Nat) :
    (mtr ord_ d (s + s) i).take s = mtr ord_ d s i := by
  rw [mtr, mtr, ← List.map_take, List.take_take]
  congr 2
  omega

lemma mtr_second_nil (ord_ : Nat → Nat) (d : List Nat) (s i : Nat)
    (h : ¬ i + s < d.length) : mtr ord_ d s (i + s) = [] :=
  (mtr_nil_iff ord_ d s (i + s)).2 (Or.inr (by omega))

lemma mtr_second_ne_nil (ord_ : Nat → Nat) (d : List Nat) (s i : Nat)
    (hs : 0 < s) (h : i + s < d.length) : mtr ord_ d s (i + s) ≠ [] := by
  intro hnil
  rcases (mtr_nil_iff ord_ d s (i + s)).1 hnil with h0 | h0 <;> omega

/-- The sort key of the doubling round compares indices exactly as their
mapped suffixes truncated to the doubled step. -/
lemma key_char (ord_ : Nat → Nat) (d : List Nat) (s : Nat) (hs : 0 < s)
    (r : List Nat) (hinv : rank_inv ord_ d s r) :
    ∀ i < d.length, ∀ j < d.length,
      (pair_lt (sa_key r d.length s i) (sa_key r d.length s j) ↔
        List.Lex (· < ·) (mtr ord_ d (s + s) i) (mtr ord_ d (s + s) j)) ∧
      (sa_key r d.length s i = sa_key r d.length s j ↔
        mtr ord_ d (s + s) i = mtr ord_ d (s + s) j) := by
  obtain ⟨hlen, hchar⟩ := hinv
  have hfst : ∀ a, (sa_key r d.length s a).1 = r.getD a 0 := fun a => rfl
  -- second component equality, for arbitrary index pairs
  have hBeq : ∀ a, a < d.length → ∀ b, b < d.length →
      ((sa_key r d.length s a).2 = (sa_key r d.length s b).2 ↔
        mtr ord_ d s (a + s) = mtr ord_ d s (b + s)) := by
    intro a ha b hb
    rw [sa_key, sa_key]
    by_cases ha2 : a + s < d.length <;> by_cases hb2 : b + s < d.length
    · rw [if_pos ha2, if_pos hb2]
      simp only [Int.natCast_inj]
      exact (hchar (a + s) ha2 (b + s) hb2).2
    · rw [if_pos ha2, if_neg hb2]
      refine iff_of_false (by omega) ?_
      rw [mtr_second_nil ord_ d s b hb2]
      exact mtr_second_ne_nil ord_ d s a hs ha2
    · rw [if_neg ha2, if_pos hb2]
      refine iff_of_false (by omega) ?_
      rw [mtr_second_nil ord_ d s a ha2]
      exact fun h => mtr_second_ne_nil ord_ d s b hs hb2 h.symm
    · rw [if_neg ha2, if_neg hb2]
      rw [mtr_second_nil ord_ d s a ha2, mtr_second_nil ord_ d s b hb2]
      simp
  -- second component strict order, for arbitrary index pairs
  have hBlt : ∀ a, a < d.length → ∀ b, b < d.length →
      ((sa_key r d.length s a).2 < (sa_key r d.length s b).2 ↔
        List.Lex (· < ·) (mtr ord_ d s (a + s)) (mtr ord_ d s (b + s))) := by
    intro a ha b hb
    rw [sa_key, sa_key]
    by_cases ha2 : a + s < d.length <;> by_cases hb2 : b + s < d.length
    · rw [if_pos ha2, if_pos hb2]
      simp only [Int.ofNat_lt]
      exact (hchar (a + s) ha2 (b + s) hb2).1
    · rw [if_pos ha2, if_neg hb2]
      refine iff_of_false (by omega) ?_
      rw [mtr_second_nil ord_ d s b hb2]
      exact List.Lex.not_nil_right _ _
    · rw [if_neg ha2, if_pos hb2]
      refine iff_of_true (by omega) ?_
      rw [mtr_second_nil ord_ d s a ha2]
      rcases List.Lex.nil_left_or_eq_nil (r := (· < ·))
          (mtr ord_ d s (b + s)) with h | h
      · exact h
      · exact absurd h (mtr_second_ne_nil ord_ d s b hs hb2)
    · rw [if_neg ha2, if_neg hb2]
      refine iff_of_false (by omega) ?_
      rw [mtr_second_nil ord_ d s a ha2, mtr_second_nil ord_ d s b hb2]
      exact List.Lex.not_nil_right _ _
  -- key equality iff equality of doubled truncations, arbitrary pairs
  have heq : ∀ a, a < d.length → ∀ b, b < d.length →
      (sa_key r d.length s a = sa_key r d.length s b ↔
        mtr ord_ d (s + s) a = mtr ord_ d (s + s) b) := by
    intro a ha b hb
    constructor
    · intro h
      have h1 : r.getD a 0 = r.getD b 0 := by
        rw [← hfst a, ← hfst b, h]
      have h2 := (hBeq a ha b hb).1 (by rw [h])
      rw [mtr_split, mtr_split, (hchar a ha b hb).2.1 h1, h2]
    · intro h
      have hA : mtr ord_ d s a = mtr ord_ d s b := by
        rw [← mtr_take ord_ d s a, ← mtr_take ord_ d s b, h]
      have hB : mtr ord_ d s (a + s) = mtr ord_ d s (b + s) := by
        rw [mtr_split, mtr_split, hA] at h
        exact List.append_cancel_left h
      have h1 : r.getD a 0 = r.getD b 0 := (hchar a ha b hb).2.2 hA
      refine Prod.ext ?_ ((hBeq a ha b hb).2 hB)
      rw [hfst a, hfst b]
      exact h1
  -- forward strict direction, arbitrary pairs
  have hfwd : ∀ a, a < d.length → ∀ b, b < d.length →
      pair_lt (sa_key r d.length s a) (sa_key r d.length s b) →
      List.Lex (· < ·) (mtr ord_ d (s + s) a) (mtr ord_ d (s + s) b) := by
    intro a ha b hb hlt
    rcases hlt with h1 | ⟨h1, h2⟩
    · rw [hfst a, hfst b] at h1
      have hlex : List.Lex (· < ·) (mtr ord_ d s a) (mtr ord_ d s b) :=
        (hchar a ha b hb).1.1 h1
      rw [mtr_split, mtr_split]
      refine lex_append_of_lex_nilright hlex _ ?_ _
      rintro ⟨t, htne, hteq⟩
      have hlen_lt : (mtr ord_ d s a).length < s := by
        have h3 := congrArg List.length hteq
        have h4 := mtr_length ord_ d s a
        have h5 := mtr_length ord_ d s b
        rw [List.length_append] at h3
        have h6 : 0 < t.length := List.length_pos_of_ne_nil htne
        omega
      have h7 := mtr_length ord_ d s a
      exact (mtr_nil_iff ord_ d s (a + s)).2 (Or.inr (by omega))
    · rw [hfst a, hfst b] at h1
      have hA : mtr ord_ d s a = mtr ord_ d s b := (hchar a ha b hb).2.1 h1
      have hB := (hBlt a ha b hb).1 h2
      rw [mtr_split, mtr_split, hA]
      exact (lex_append_iff _ _ _).2 hB
  intro i hi j hj
  refine ⟨⟨hfwd i hi j hj, ?_⟩, heq i hi j hj⟩
  intro hlex
  rcases pair_lt_trichotomy (sa_key r d.length s i) (sa_key r d.length s j)
      with h | h | h
  · exact h
  · rw [(heq i hi j hj).1 h] at hlex
    exact absurd hlex (lex_irrefl _)
  · exact absurd hlex (lex_asymm (hfwd j hj i hi h))

lemma bsa_loop_spec (ord_ : Nat → Nat) (d : List Nat) :
    ∀ (gas s : Nat) (hs : 0 < s) (r sa : List Nat),
      d.length - s ≤ gas →
      rank_inv ord_ d s r →
      sa.Perm (List.range d.length) →
      (d.length ≤ s → sa.Pairwise (slt ord_ d)) →
      (bsa_loop d.length r sa s hs).Perm (List.range d.length) ∧
        (bsa_loop d.length r sa s hs).Pairwise (slt ord_ d) := by
  intro gas
  induction gas with
  | zero =>
    intro s hs r sa hgas hinv hperm hsorted
    have hns : ¬ s < d.length := by omega
    rw [bsa_loop_exit _ _ _ _ _ hns]
    exact ⟨hperm, hsorted (by omega)⟩
  | succ g ih =>
    intro s hs r sa hgas hinv hperm hsorted
    by_cases hlt : s < d.length
    · rw [bsa_loop_step _ _ _ _ _ hlt]
      set k := sa_key r d.length s with hk
      set sa2 := sort_by_key k sa with hsa2
      set r2 := update_ranks k sa2 d.length with hr2
      have hperm2 : sa2.Perm (List.range d.length) :=
        (List.perm_insertionSort _ sa).trans hperm
      have hpw2 : sa2.Pairwise (fun i j => pair_le (k i) (k j)) := by
        haveI : IsTotal Nat (fun i j => pair_le (k i) (k j)) :=
          ⟨fun a b => pair_le_total _ _⟩
        haveI : IsTrans Nat (fun i j => pair_le (k i) (k j)) :=
          ⟨fun a b c h1 h2 => pair_le_trans h1 h2⟩
        exact List.sorted_insertionSort _ sa
      obtain ⟨hchar2, hlen2⟩ := update_ranks_spec k d.length sa2 hperm2 hpw2
      have hmem_lt : ∀ x ∈ sa2, x < d.length := by
        intro x hx
        have := hperm2.mem_iff.mp hx
        simpa using this
      have hkc := key_char ord_ d s hs r hinv
      have hinv2 : rank_inv ord_ d (s * 2) r2 := by
        constructor
        · exact hlen2
        · intro i hi j hj
          have hmi : i ∈ sa2 := by
            rw [hperm2.mem_iff]; simpa using hi
          have hmj : j ∈ sa2 := by
            rw [hperm2.mem_iff]; simpa using hj
          have hc := hchar2 i hmi j hmj
          have hx := hkc i hi j hj
          rw [show s * 2 = s + s from by ring]
          exact ⟨hc.1.trans hx.1, hc.2.trans hx.2⟩
      have hsorted2 : d.length ≤ s * 2 → sa2.Pairwise (slt ord_ d) := by
        intro hn2
        rw [List.pairwise_iff_get] at hpw2 ⊢
        intro u v huv
        have hu_mem : sa2.get u ∈ sa2 := sa2.get_mem _ _
        have hv_mem : sa2.get v ∈ sa2 := sa2.get_mem _ _
        have hu_lt : sa2.get u < d.length := hmem_lt _ hu_mem
        have hv_lt : sa2.get v < d.length := hmem_lt _ hv_mem
        have hle := hpw2 u v huv
        have hnd : sa2.Nodup := hperm2.nodup_iff.mpr (List.nodup_range _)
        have hne : sa2.get u ≠ sa2.get v := by
          intro hcontra
          have := (List.Nodup.get_inj_iff hnd).mp hcontra
          omega
        have hkne : k (sa2.get u) ≠ k (sa2.get v) := by
          intro hkeq
          have hmeq := (hkc _ hu_lt _ hv_lt).2.1 hkeq
          rw [mtr_eq_msfx ord_ d _ _ (by omega),
            mtr_eq_msfx ord_ d _ _ (by omega)] at hmeq
          have h1 := congrArg List.length hmeq
          rw [msfx_length, msfx_length] at h1
          exact hne (by omega)
        have hklt := pair_lt_of_le_of_ne hle hkne
        have hmlt := (hkc _ hu_lt _ hv_lt).1.1 hklt
        rw [mtr_eq_msfx ord_ d _ _ (by omega),
          mtr_eq_msfx ord_ d _ _ (by omega)] at hmlt
        exact hmlt
      exact ih (s * 2) (by omega) r2 sa2 (by omega) hinv2 hperm2 hsorted2
    · rw [bsa_loop_exit _ _ _ _ _ hlt]
      exact ⟨hperm, hsorted (by omega)⟩

lemma build_suffix_array_spec (ord_ : Nat → Nat) (d : List Nat) :
    (build_suffix_array ord_ d).Perm (List.range d.length) ∧
      (build_suffix_array ord_ d).Pairwise (slt ord_ d) := by
  rw [build_suffix_array]
  refine bsa_loop_spec ord_ d d.length 1 (by omega) _ _ (by omega) ?_
    (List.Perm.refl _) ?_
  · constructor
    · simp
    · intro i hi j hj
      have hgi : (d.map ord_).getD i 0 = ord_ (d.get ⟨i, hi⟩) := by
        rw [List.getD_eq_getElem _ 0 (by simpa using hi)]
        simp
      have hgj : (d.map ord_).getD j 0 = ord_ (d.get ⟨j, hj⟩) := by
        rw [List.getD_eq_getElem _ 0 (by simpa using hj)]
        simp
      have hmi : mtr ord_ d 1 i = [ord_ (d.get ⟨i, hi⟩)] := by
        simp only [mtr, List.drop_eq_getElem_cons hi, List.take_succ_cons,
          List.take_zero, List.map_cons, List.map_nil]
        simp
      have hmj : mtr ord_ d 1 j = [ord_ (d.get ⟨j, hj⟩)] := by
        simp only [mtr, List.drop_eq_getElem_cons hj, List.take_succ_cons,
          List.take_zero, List.map_cons, List.map_nil]
        simp
      rw [hgi, hgj, hmi, hmj]
      constructor
      · exact (lex_singleton_iff _ _).symm
      · constructor
        · intro h; rw [h]
        · intro h; simpa using h
  · intro h1
    rcases Nat.le_one_iff_eq_zero_or_eq_one.mp h1 with h0 | h0 <;> rw [h0]
    · rw [List.range_zero]
      exact List.Pairwise.nil
    · rw [show List.range 1 = [0] from rfl]
      exact List.pairwise_singleton _ _

/-! ### Position and counting machinery for the inverse transform. -/

/-- Python `(idx - 1) % n` for `0 ≤ idx < n`: the cyclic predecessor. -/
def predn (n m : Nat) : Nat := (m + n - 1) % n

lemma predn_eq (n m : Nat) (h : m < n) :
    predn n m = if m = 0 then n - 1 else m - 1 := by
  rw [predn]
  rcases Nat.eq_zero_or_pos m with rfl | hm
  · rw [if_pos rfl]
    rw [Nat.zero_add]
    exact Nat.mod_eq_of_lt (by omega)
  · rw [if_neg (by omega)]
    have h2 : m + n - 1 = (m - 1) + n := by omega
    rw [h2, Nat.add_mod_right]
    exact Nat.mod_eq_of_lt (by omega)

lemma predn_lt (n m : Nat) (h : 0 < n) : predn n m < n :=
  Nat.mod_lt _ h

lemma predn_inj (n : Nat) {a b : Nat} (ha : a < n) (hb : b < n)
    (h : predn n a = predn n b) : a = b := by
  rw [predn_eq n a ha, predn_eq n b hb] at h
  split_ifs at h <;> omega

lemma predn_succ (n m : Nat) (h : m + 1 < n) : predn n (m + 1) = m := by
  rw [predn_eq n (m + 1) h, if_neg (by omega)]
  omega

lemma predn_zero (n : Nat) (h : 0 < n) : predn n 0 = n - 1 := by
  rw [predn_eq n 0 h, if_pos rfl]

lemma predn_surj (n j : Nat) (hj : j < n) : ∃ m, m < n ∧ predn n m = j := by
  by_cases hlast : j = n - 1
  · exact ⟨0, by omega, by rw [predn_zero n (by omega), hlast]⟩
  · exact ⟨j + 1, by omega, by rw [predn_succ n j (by omega)]⟩

lemma map_getD_range (l : List Nat) :
    (List.range l.length).map (fun j => l.getD j 0) = l := by
  refine List.ext_get (by simp) ?_
  intro i h1 h2
  simp only [List.get_eq_getElem, List.getElem_map, List.getElem_range]
  rw [List.getD_eq_getElem l 0 h2]

lemma map_predn_range_perm (n : Nat) :
    ((List.range n).map (predn n)).Perm (List.range n) := by
  rcases Nat.eq_zero_or_pos n with rfl | hn
  · simp
  refine (List.perm_ext_iff_of_nodup ?_ (List.nodup_range n)).mpr ?_
  · refine (List.nodup_range n).map_on ?_
    intro a ha b hb hab
    exact predn_inj n (by simpa using ha) (by simpa using hb) hab
  · intro a
    simp only [List.mem_map, List.mem_range]
    constructor
    · rintro ⟨m, hm, rfl⟩
      exact predn_lt n m hn
    · intro ha
      rcases predn_surj n a ha with ⟨m, hm, hpm⟩
      exact ⟨m, hm, hpm⟩

lemma countP_or_disjoint (l : List Nat) (p q : Nat → Bool)
    (h : ∀ a ∈ l, ¬(p a = true ∧ q a = true)) :
    l.countP (fun a => p a || q a) = l.countP p + l.countP q := by
  induction l with
  | nil => rfl
  | cons a rest ih =>
    rw [List.countP_cons, List.countP_cons, List.countP_cons,
      ih (fun b hb => h b (by simp [hb]))]
    have := h a (by simp)
    by_cases hp : p a <;> by_cases hq : q a <;> simp [hp, hq] at this ⊢ <;> omega

lemma countP_reindex (n : Nat) (g : Nat → Nat)
    (hg : ((List.range n).map g).Perm (List.range n)) (P : Nat → Bool) :
    (List.range n).countP (fun u => P (g u)) = (List.range n).countP P := by
  have h1 : ((List.range n).map g).countP P =
      (List.range n).countP (fun u => P (g u)) := by
    rw [List.countP_map]
    rfl
  rw [← h1, hg.countP_eq]

lemma countP_lt_sorted (R : Nat → Nat → Prop) [DecidableRel R]
    (l : List Nat) (hpw : l.Pairwise R)
    (hasymm : ∀ a b, R a b → ¬ R b a) (t : Nat) (ht : t < l.length) :
    l.countP (fun a => decide (R a (l.get ⟨t, ht⟩))) = t := by
  have hget := List.pairwise_iff_get.mp hpw
  set x := l.get ⟨t, ht⟩ with hx
  have hdecomp : l.take t ++ x :: l.drop (t + 1) = l := by
    have h2 : l.drop t = x :: l.drop (t + 1) := by
      rw [List.drop_eq_getElem_cons ht, hx]
      simp
    rw [← h2, List.take_append_drop]
  conv_lhs => rw [← hdecomp]
  rw [List.countP_append, List.countP_cons]
  have htake : (l.take t).countP (fun a => decide (R a x)) = t := by
    rw [List.countP_eq_length.mpr, List.length_take]
    · omega
    · intro a ha
      rcases List.mem_iff_get.mp ha with ⟨u, hu⟩
      have hu2 : (u : Nat) < t ∧ (u : Nat) < l.length := by
        have := u.isLt
        simp [List.length_take] at this
        omega
      have hval : (l.take t).get u = l.get ⟨u, hu2.2⟩ := by
        simp [List.get_eq_getElem, List.getElem_take]
      rw [← hu, hval]
      exact decide_eq_true (hget ⟨u, hu2.2⟩ ⟨t, ht⟩ (by
        rw [Fin.mk_lt_mk]
        exact hu2.1))
  have hdrop : (l.drop (t + 1)).countP (fun a => decide (R a x)) = 0 := by
    rw [List.countP_eq_zero]
    intro a ha
    rcases List.mem_iff_get.mp ha with ⟨u, hu⟩
    have hu2 : t + 1 + (u : Nat) < l.length := by
      have := u.isLt
      simp [List.length_drop] at this
      omega
    have hval : (l.drop (t + 1)).get u = l.get ⟨t + 1 + u, hu2⟩ := by
      simp [List.get_eq_getElem, List.getElem_drop]
    have hR : R x (l.get ⟨t + 1 + u, hu2⟩) :=
      hget ⟨t, ht⟩ ⟨t + 1 + u, hu2⟩ (by rw [Fin.mk_lt_mk]; omega)
    rw [← hu, hval]
    simpa using hasymm _ _ hR
  have hself : (decide (R x x)) = false := by
    by_cases h : R x x
    · exact absurd h (hasymm x x h)
    · simpa using h
  rw [htake, hdrop, hself]
  simp

lemma py_first_dedup_aux (l : List Nat) :
    ∀ acc : List Nat, acc.Nodup →
      (List.foldl (fun acc a => if a ∈ acc then acc else acc ++ [a]) acc l).Nodup ∧
      ∀ b, (b ∈ List.foldl (fun acc a => if a ∈ acc then acc else acc ++ [a]) acc l ↔
        b ∈ acc ∨ b ∈ l) := by
  induction l with
  | nil =>
    intro acc hnd
    exact ⟨hnd, fun b => by simp⟩
  | cons a rest ih =>
    intro acc hnd
    rw [List.foldl_cons]
    have hnd2 : (if a ∈ acc then acc else acc ++ [a]).Nodup := by
      split_ifs with hmem
      · exact hnd
      · rw [List.nodup_append]
        exact ⟨hnd, List.nodup_singleton a,
          fun x hx hx2 => hmem ((by simpa using hx2) ▸ hx)⟩
    have hmem2 : ∀ b, b ∈ (if a ∈ acc then acc else acc ++ [a]) ↔
        b ∈ acc ∨ b = a := by
      intro b
      split_ifs with hmem
      · constructor
        · exact Or.inl
        · rintro (h | rfl)
          · exact h
          · exact hmem
      · simp
    obtain ⟨h1, h2⟩ := ih _ hnd2
    refine ⟨h1, fun b => ?_⟩
    rw [h2 b, hmem2 b]
    simp only [List.mem_cons]
    tauto

lemma py_first_dedup_nodup (l : List Nat) : (py_first_dedup l).Nodup :=
  (py_first_dedup_aux l [] List.nodup_nil).1

lemma py_first_dedup_mem (l : List Nat) (b : Nat) :
    b ∈ py_first_dedup l ↔ b ∈ l := by
  rw [py_first_dedup, (py_first_dedup_aux l [] List.nodup_nil).2 b]
  simp

lemma sorted_chars_nodup (ord_ : Nat → Nat) (L : List Nat) :
    (sorted_chars ord_ L).Nodup :=
  (List.perm_insertionSort _ _).nodup_iff.mpr (py_first_dedup_nodup L)

lemma sorted_chars_mem (ord_ : Nat → Nat) (L : List Nat) (b : Nat) :
    b ∈ sorted_chars ord_ L ↔ b ∈ L := by
  rw [sorted_chars, (List.perm_insertionSort _ _).mem_iff, py_first_dedup_mem]

lemma sorted_chars_pairwise (ord_ : Nat → Nat)
    (hinj : Function.Injective ord_) (L : List Nat) :
    (sorted_chars ord_ L).Pairwise (fun a b => ord_ a < ord_ b) := by
  have hle : (sorted_chars ord_ L).Pairwise (fun a b => ord_ a ≤ ord_ b) := by
    haveI : IsTotal Nat (fun a b => ord_ a ≤ ord_ b) :=
      ⟨fun a b => Nat.le_total _ _⟩
    haveI : IsTrans Nat (fun a b => ord_ a ≤ ord_ b) :=
      ⟨fun a b c h1 h2 => le_trans h1 h2⟩
    exact List.sorted_insertionSort _ _
  have hnd := sorted_chars_nodup ord_ L
  rw [List.pairwise_iff_get] at hle ⊢
  intro u v huv
  have hle2 := hle u v huv
  have hne : (sorted_chars ord_ L).get u ≠ (sorted_chars ord_ L).get v := by
    intro hcontra
    have := (List.Nodup.get_inj_iff hnd).mp hcontra
    rw [this] at huv
    exact lt_irrefl _ huv
  have : ord_ ((sorted_chars ord_ L).get u) ≠
      ord_ ((sorted_chars ord_ L).get v) := fun h => hne (hinj h)
  omega

lemma sum_indicator (s : List Nat) (a : Nat) (hnd : s.Nodup) :
    (s.map (fun c => if a = c then 1 else 0)).sum = if a ∈ s then 1 else 0 := by
  induction s with
  | nil => simp
  | cons c rest ih =>
    rw [List.map_cons, List.sum_cons, ih (List.nodup_cons.mp hnd).2]
    by_cases hac : a = c
    · subst hac
      have hnotin : a ∉ rest := (List.nodup_cons.mp hnd).1
      rw [if_pos rfl, if_neg hnotin, if_pos (by simp)]
    · rw [if_neg hac]
      by_cases hmem : a ∈ rest
      · rw [if_pos hmem, if_pos (by simp [hmem])]
      · rw [if_neg hmem, if_neg (by simp [hmem, hac])]

lemma sum_map_add (s : List Nat) (F G : Nat → Nat) :
    (s.map (fun c => F c + G c)).sum = (s.map F).sum + (s.map G).sum := by
  induction s with
  | nil => simp
  | cons c rest ih =>
    simp only [List.map_cons, List.sum_cons, ih]
    omega

lemma countP_eq_sum_counts (L : List Nat) (chars : List Nat) (p : Nat → Bool)
    (hnd : chars.Nodup) (hmem : ∀ a ∈ L, p a = true → a ∈ chars) :
    L.countP p = ((chars.filter p).map (fun c => L.count c)).sum := by
  induction L with
  | nil =>
    simp [List.count_nil]
  | cons a L2 ih =>
    rw [List.countP_cons]
    have hcnt : ∀ c, (a :: L2).count c = L2.count c + if a = c then 1 else 0 := by
      intro c
      rw [List.count_cons]
      by_cases h : a = c <;> simp [h]
    have hmap : (chars.filter p).map (fun c => (a :: L2).count c) =
        (chars.filter p).map (fun c => L2.count c + if a = c then 1 else 0) := by
      exact List.map_congr_left (fun c _ => hcnt c)
    rw [hmap, sum_map_add, ← ih (fun b hb hpb => hmem b (by simp [hb]) hpb),
      sum_indicator _ a (hnd.filter p)]
    by_cases hpa : p a = true
    · rw [if_pos hpa, if_pos (List.mem_filter.mpr ⟨hmem a (by simp) hpa, hpa⟩)]
    · rw [if_neg hpa, if_neg (fun hmem2 => hpa (List.mem_filter.mp hmem2).2)]

lemma cum_go_lookup (ord_ : Nat → Nat) (L : List Nat) :
    ∀ (chars : List Nat) (tot c : Nat),
      chars.Pairwise (fun a b => ord_ a < ord_ b) → c ∈ chars →
      (cum_go L chars tot).lookup c =
        some (tot + ((chars.filter (fun c2 => decide (ord_ c2 < ord_ c))).map
          (fun c2 => L.count c2)).sum) := by
  intro chars
  induction chars with
  | nil =>
    intro tot c _ hc
    exact absurd hc (by simp)
  | cons c2 rest ih =>
    intro tot c hpw hc
    rw [cum_go]
    have hpw2 := List.pairwise_cons.mp hpw
    by_cases hcc : c = c2
    · subst hcc
      have hlookup : ((c, tot) :: cum_go L rest (tot + L.count c)).lookup c =
          some tot := by
        simp [List.lookup]
      rw [hlookup]
      have hfilter : (c :: rest).filter
          (fun c3 => decide (ord_ c3 < ord_ c)) = [] := by
        rw [List.filter_eq_nil]
        intro a ha
        rcases List.mem_cons.mp ha with rfl | ha2
        · simp
        · have := hpw2.1 a ha2
          simp
          omega
      rw [hfilter]
      simp
    · have hcrest : c ∈ rest := by
        rcases List.mem_cons.mp hc with h | h
        · exact absurd h hcc
        · exact h
      have hlookup : ((c2, tot) :: cum_go L rest (tot + L.count c2)).lookup c =
          (cum_go L rest (tot + L.count c2)).lookup c := by
        have hbeq : (c == c2) = false := by simp [hcc]
        simp [List.lookup, hbeq]
      rw [hlookup, ih (tot + L.count c2) c hpw2.2 hcrest]
      have hkeep : decide (ord_ c2 < ord_ c) = true := by
        simp
        exact hpw2.1 c hcrest
      rw [List.filter_cons, if_pos hkeep, List.map_cons, List.sum_cons]
      congr 1
      omega

lemma cumulative_count_spec (ord_ : Nat → Nat)
    (hinj : Function.Injective ord_) (L : List Nat) (c : Nat) (hc : c ∈ L) :
    cumulative_count ord_ L c =
      L.countP (fun a => decide (ord_ a < ord_ c)) := by
  rw [cumulative_count,
    cum_go_lookup ord_ L (sorted_chars ord_ L) 0 c
      (sorted_chars_pairwise ord_ hinj L) ((sorted_chars_mem ord_ L c).mpr hc)]
  rw [Option.getD_some, Nat.zero_add]
  rw [countP_eq_sum_counts L (sorted_chars ord_ L)
    (fun a => decide (ord_ a < ord_ c)) (sorted_chars_nodup ord_ L)
    (fun a ha _ => (sorted_chars_mem ord_ L a).mpr ha)]

/-- Occurrence rank of position `t` in `L`: how many earlier positions hold
the same byte (the decoder's `next_pos` counter when it reaches `t`). -/
def occ_at (L : List Nat) (t : Nat) : Nat := (L.take t).count (L.getD t 0)

/-- Slot in the decoder's `t` array where position `t` of the last column is
stored. -/
def slot_at (cum : Nat → Nat) (L : List Nat) (t : Nat) : Nat :=
  cum (L.getD t 0) + occ_at L t

lemma count_singleton_ite (a b : Nat) :
    List.count a [b] = if b = a then 1 else 0 := by
  by_cases hab : b = a
  · rw [List.count_singleton', if_pos hab]
  · rw [List.count_singleton', if_neg hab]

lemma count_take_succ (L : List Nat) (t : Nat) (ht : t < L.length) (c : Nat) :
    (L.take (t + 1)).count c =
      (L.take t).count c + if L.getD t 0 = c then 1 else 0 := by
  have h1 : L.take (t + 1) = L.take t ++ [L.getD t 0] := by
    rw [List.take_succ, List.getElem?_eq_getElem ht, List.getD_eq_getElem L 0 ht]
    rfl
  rw [h1, List.count_append]
  congr 1
  rw [count_singleton_ite]

lemma occ_lt_count (L : List Nat) (t : Nat) (ht : t < L.length) :
    occ_at L t < L.count (L.getD t 0) := by
  have h1 := count_take_succ L t ht (L.getD t 0)
  rw [if_pos rfl] at h1
  have h2 : (L.take (t + 1)).count (L.getD t 0) ≤ L.count (L.getD t 0) :=
    (List.take_sublist (t + 1) L).count_le _
  rw [occ_at]
  omega

lemma count_take_mono (L : List Nat) (t t' : Nat) (h : t ≤ t') (c : Nat) :
    (L.take t).count c ≤ (L.take t').count c := by
  have h1 : L.take t = (L.take t').take t := by
    rw [List.take_take, Nat.min_eq_left h]
  rw [h1]
  exact (List.take_sublist t _).count_le c

lemma cum_add_count_le (ord_ : Nat → Nat) (L : List Nat) (c : Nat)
    (hc : c ∈ L) (hinj : Function.Injective ord_) :
    cumulative_count ord_ L c + L.count c ≤ L.length := by
  rw [cumulative_count_spec ord_ hinj L c hc]
  have hcount : L.count c = L.countP (fun a => a == c) := rfl
  rw [hcount]
  have hdisj := countP_or_disjoint L (fun a => decide (ord_ a < ord_ c))
    (fun a => a == c) (by
      intro a _ ⟨h1, h2⟩
      have ha : a = c := by simpa using h2
      subst ha
      simp at h1)
  rw [← hdisj]
  exact List.countP_le_length _

lemma cum_count_le_cum (ord_ : Nat → Nat) (L : List Nat) (c c' : Nat)
    (hc : c ∈ L) (hc' : c' ∈ L) (hinj : Function.Injective ord_)
    (hlt : ord_ c < ord_ c') :
    cumulative_count ord_ L c + L.count c ≤ cumulative_count ord_ L c' := by
  rw [cumulative_count_spec ord_ hinj L c hc,
    cumulative_count_spec ord_ hinj L c' hc']
  have hcount : L.count c = L.countP (fun a => a == c) := rfl
  rw [hcount]
  have hdisj := countP_or_disjoint L (fun a => decide (ord_ a < ord_ c))
    (fun a => a == c) (by
      intro a _ ⟨h1, h2⟩
      have ha : a = c := by simpa using h2
      subst ha
      simp at h1)
  rw [← hdisj]
  refine List.countP_mono_left ?_
  intro a _ hpa
  simp only [Bool.or_eq_true, decide_eq_true_eq, beq_iff_eq] at hpa
  simp only [decide_eq_true_eq]
  rcases hpa with h | rfl
  · omega
  · exact hlt

lemma getD_mem (L : List Nat) (t : Nat) (ht : t < L.length) :
    L.getD t 0 ∈ L := by
  rw [List.getD_eq_getElem L 0 ht]
  exact L.getElem_mem ht

lemma slot_lt (ord_ : Nat → Nat) (hinj : Function.Injective ord_)
    (L : List Nat) (t : Nat) (ht : t < L.length) :
    slot_at (cumulative_count ord_ L) L t < L.length := by
  have h1 := occ_lt_count L t ht
  have h2 := cum_add_count_le ord_ L (L.getD t 0) (getD_mem L t ht) hinj
  rw [slot_at]
  omega

lemma slot_ne (ord_ : Nat → Nat) (hinj : Function.Injective ord_)
    (L : List Nat) (t t' : Nat) (ht : t < L.length) (ht' : t' < L.length)
    (hne : t ≠ t') :
    slot_at (cumulative_count ord_ L) L t ≠
      slot_at (cumulative_count ord_ L) L t' := by
  by_cases hcc : L.getD t 0 = L.getD t' 0
  · -- same character: occurrence ranks differ
    rcases Nat.lt_or_ge t t' with hlt | hge
    · have h1 := count_take_succ L t ht (L.getD t 0)
      rw [if_pos rfl] at h1
      have h2 := count_take_mono L (t + 1) t' (by omega) (L.getD t 0)
      rw [slot_at, slot_at, occ_at, occ_at, hcc]
      rw [hcc] at h1 h2
      omega
    · have hlt2 : t' < t := by omega
      have h1 := count_take_succ L t' ht' (L.getD t' 0)
      rw [if_pos rfl] at h1
      have h2 := count_take_mono L (t' + 1) t hlt2 (L.getD t' 0)
      rw [slot_at, slot_at, occ_at, occ_at, hcc]
      omega
  · -- different characters: cumulative ranges are disjoint
    have hordne : ord_ (L.getD t 0) ≠ ord_ (L.getD t' 0) :=
      fun h => hcc (hinj h)
    rcases Nat.lt_or_ge (ord_ (L.getD t 0)) (ord_ (L.getD t' 0)) with hlt | hge
    · have h1 := occ_lt_count L t ht
      have h2 := cum_count_le_cum ord_ L (L.getD t 0) (L.getD t' 0)
        (getD_mem L t ht) (getD_mem L t' ht') hinj hlt
      rw [slot_at, slot_at]
      omega
    · have hlt : ord_ (L.getD t' 0) < ord_ (L.getD t 0) := by omega
      have h1 := occ_lt_count L t' ht'
      have h2 := cum_count_le_cum ord_ L (L.getD t' 0) (L.getD t 0)
        (getD_mem L t' ht') (getD_mem L t ht) hinj hlt
      rw [slot_at, slot_at]
      omega

lemma build_t_go_assigned (cum : Nat → Nat) (L : List Nat)
    (hslot_lt : ∀ t < L.length, slot_at cum L t < L.length)
    (hslot_ne : ∀ t t', t < L.length → t' < L.length → t ≠ t' →
      slot_at cum L t ≠ slot_at cum L t') :
    ∀ (l : List Nat) (idx : Nat) (np : Nat → Nat) (acc : List Nat),
      l = L.drop idx →
      (∀ c, np c = (L.take idx).count c) →
      acc.length = L.length →
      (∀ t, t < idx → t < L.length →
        acc.getD (slot_at cum L t) 0 = t) →
      ∀ t < L.length,
        (build_t_go cum l idx np acc).getD (slot_at cum L t) 0 = t := by
  intro l
  induction l with
  | nil =>
    intro idx np acc hdrop hnp hlen hassigned t ht
    have hidx : L.length ≤ idx := by
      by_contra hcon
      have hlt : idx < L.length := by omega
      have h2 : L.drop idx ≠ [] := by
        rw [List.drop_eq_getElem_cons hlt]
        exact List.cons_ne_nil _ _
      exact h2 hdrop.symm
    exact hassigned t (by omega) ht
  | cons char lrest ih =>
    intro idx np acc hdrop hnp hlen hassigned t ht
    have hidx : idx < L.length := by
      by_contra hcon
      rw [List.drop_eq_nil_of_le (by omega)] at hdrop
      exact absurd hdrop (by simp)
    have hdrop2 : L.drop idx = L.getD idx 0 :: L.drop (idx + 1) := by
      rw [List.drop_eq_getElem_cons hidx, List.getD_eq_getElem L 0 hidx]
    rw [hdrop2] at hdrop
    have hchar : char = L.getD idx 0 := by
      injection hdrop with h1 _
    have hlrest : lrest = L.drop (idx + 1) := by
      injection hdrop with _ h2
    rw [build_t_go]
    have hslot_eq : cum char + np char = slot_at cum L idx := by
      rw [hchar, hnp, slot_at, occ_at]
    refine ih (idx + 1)
      (fun c => if c = char then np c + 1 else np c)
      (acc.set (cum char + np char) idx) hlrest ?_ (by simp [hlen]) ?_ t ht
    · intro c
      show (if c = char then np c + 1 else np c) = (L.take (idx + 1)).count c
      rw [count_take_succ L idx hidx c, hnp c]
      by_cases hc : c = char
      · rw [if_pos hc, if_pos (by rw [← hchar, hc])]
      · rw [if_neg hc, if_neg (by
          rw [← hchar]
          exact fun h => hc h.symm)]
        omega
    · intro t2 ht2 ht2len
      rcases Nat.lt_or_ge t2 idx with hlt | hge
      · rw [hslot_eq, getD_set_ne _ _ _ _
          (hslot_ne idx t2 hidx ht2len (by omega))]
        exact hassigned t2 hlt ht2len
      · have ht2eq : t2 = idx := by omega
        subst ht2eq
        rw [hslot_eq, getD_set_self _ _ _ (by rw [hlen]; exact hslot_lt t2 ht2len)]

lemma build_t_assigned (ord_ : Nat → Nat) (hinj : Function.Injective ord_)
    (L : List Nat) :
    ∀ t < L.length,
      (build_t (cumulative_count ord_ L) L).getD
        (slot_at (cumulative_count ord_ L) L t) 0 = t := by
  intro t ht
  refine build_t_go_assigned (cumulative_count ord_ L) L
    (fun t2 ht2 => slot_lt ord_ hinj L t2 ht2)
    (fun t2 t2' h1 h2 h3 => slot_ne ord_ hinj L t2 t2' h1 h2 h3)
    L 0 (fun _ => 0) (List.replicate L.length 0) (by simp) (by simp)
    (by simp) (by omega) t ht

instance slt_decidable (ord_ : Nat → Nat) (d : List Nat) :
    DecidableRel (slt ord_ d) := fun i j => by
  unfold slt
  infer_instance

lemma slt_get_iff (ord_ : Nat → Nat) (d : List Nat) (sa : List Nat)
    (hpw : sa.Pairwise (slt ord_ d)) (u t : Nat)
    (hu : u < sa.length) (ht : t < sa.length) :
    slt ord_ d (sa.getD u 0) (sa.getD t 0) ↔ u < t := by
  have hget := List.pairwise_iff_get.mp hpw
  rw [List.getD_eq_getElem sa 0 hu, List.getD_eq_getElem sa 0 ht]
  constructor
  · intro hslt
    rcases Nat.lt_trichotomy u t with h | h | h
    · exact h
    · subst h
      exact absurd hslt (lex_irrefl _)
    · have := hget ⟨t, ht⟩ ⟨u, hu⟩ (by rw [Fin.mk_lt_mk]; exact h)
      exact absurd hslt (lex_asymm this)
  · intro h
    exact hget ⟨u, hu⟩ ⟨t, ht⟩ (by rw [Fin.mk_lt_mk]; exact h)

lemma indexOf_facts (sa : List Nat) (n : Nat)
    (hperm : sa.Perm (List.range n)) (i : Nat) (hi : i < n) :
    sa.indexOf i < sa.length ∧ sa.getD (sa.indexOf i) 0 = i := by
  have hmem : i ∈ sa := hperm.mem_iff.mpr (by simpa using hi)
  have h1 : sa.indexOf i < sa.length := List.indexOf_lt_length.mpr hmem
  refine ⟨h1, ?_⟩
  rw [List.getD_eq_getElem sa 0 h1]
  exact List.getElem_indexOf h1

lemma indexOf_eq_countP (ord_ : Nat → Nat) (d : List Nat) (sa : List Nat)
    (n : Nat) (hperm : sa.Perm (List.range n))
    (hpw : sa.Pairwise (slt ord_ d)) (i : Nat) (hi : i < n) :
    sa.indexOf i =
      (List.range n).countP (fun j => decide (slt ord_ d j i)) := by
  obtain ⟨hlt, hval⟩ := indexOf_facts sa n hperm i hi
  have h1 := countP_lt_sorted (slt ord_ d) sa hpw
    (fun a b h => lex_asymm h) (sa.indexOf i) hlt
  have h2 : sa.get ⟨sa.indexOf i, hlt⟩ = i := by
    rw [List.get_eq_getElem, ← List.getD_eq_getElem sa 0 hlt]
    exact hval
  rw [h2] at h1
  rw [← h1, hperm.countP_eq]

lemma mem_take_getD (L : List Nat) (t : Nat) (a : Nat)
    (ha : a ∈ L.take t) : ∃ u, u < t ∧ u < L.length ∧ L.getD u 0 = a := by
  rcases List.mem_iff_get.mp ha with ⟨u, hu⟩
  have hu2 : (u : Nat) < t ∧ (u : Nat) < L.length := by
    have := u.isLt
    simp [List.length_take] at this
    omega
  refine ⟨u, hu2.1, hu2.2, ?_⟩
  rw [List.getD_eq_getElem L 0 hu2.2]
  rw [← hu]
  simp [List.get_eq_getElem, List.getElem_take]

lemma countP_range_lt (t : Nat) (q : Nat → Bool) :
    ∀ m, (List.range (t + m)).countP (fun u => decide (u < t) && q u) =
      (List.range t).countP q := by
  intro m
  induction m with
  | zero =>
    refine List.countP_congr ?_
    intro u hu
    have : u < t := by simpa using hu
    simp [this]
  | succ k ih =>
    rw [show t + (k + 1) = (t + k) + 1 from rfl, List.range_succ,
      List.countP_append, ih]
    have : ¬ ((t + k) < t) := by omega
    simp [this]

lemma take_eq_map_range (L : List Nat) (t : Nat) (ht : t ≤ L.length) :
    L.take t = (List.range t).map (fun u => L.getD u 0) := by
  refine List.ext_get (by simp; omega) ?_
  intro u h1 h2
  simp only [List.get_eq_getElem, List.getElem_map, List.getElem_range]
  have hu : u < t := by simpa using h2
  have huL : u < L.length := by omega
  rw [List.getD_eq_getElem L 0 huL]
  simp [List.getElem_take]

lemma count_take_eq_countP_range (L : List Nat) (t : Nat) (ht : t ≤ L.length)
    (c : Nat) :
    (L.take t).count c =
      (List.range t).countP (fun u => decide (L.getD u 0 = c)) := by
  rw [take_eq_map_range L t ht]
  have h1 : ((List.range t).map (fun u => L.getD u 0)).count c =
      ((List.range t).map (fun u => L.getD u 0)).countP (fun a => a == c) := rfl
  rw [h1, List.countP_map]
  refine List.countP_congr ?_
  intro u _
  simp

lemma msfx_cons (ord_ : Nat → Nat) (d : List Nat) (j : Nat)
    (hj : j < d.length) :
    msfx ord_ d j = ord_ (d.getD j 0) :: msfx ord_ d (j + 1) := by
  rw [msfx, msfx, List.drop_eq_getElem_cons hj, List.map_cons,
    List.getD_eq_getElem d 0 hj]

lemma msfx_nil (ord_ : Nat → Nat) (d : List Nat) :
    msfx ord_ d d.length = [] := by
  rw [msfx, List.drop_length]
  rfl

lemma countP_getD_range (M : List Nat) (p : Nat → Bool) :
    M.countP p = (List.range M.length).countP (fun j => p (M.getD j 0)) := by
  conv_lhs => rw [← map_getD_range M]
  rw [List.countP_map]
  rfl

lemma nodup_getD_inj (sa : List Nat) (hnd : sa.Nodup) (u t : Nat)
    (hu : u < sa.length) (ht : t < sa.length)
    (h : sa.getD u 0 = sa.getD t 0) : u = t := by
  rw [List.getD_eq_getElem sa 0 hu, List.getD_eq_getElem sa 0 ht] at h
  have h2 : sa.get ⟨u, hu⟩ = sa.get ⟨t, ht⟩ := by
    rw [List.get_eq_getElem, List.get_eq_getElem]
    exact h
  have h3 := (List.Nodup.get_inj_iff hnd).mp h2
  exact congrArg Fin.val h3

/-- Facts about the last column `L` produced by `sbwt_encode` from the
suffix array `sa` of `d`: its length, its entries as predecessor characters,
and that it is a permutation of `d`. -/
lemma L_facts (d sa L : List Nat) (n : Nat)
    (hnd : n = d.length) (hperm : sa.Perm (List.range n))
    (hL : L = sa.map (fun idx => d.getD ((idx + sa.length - 1) % sa.length) 0)) :
    L.length = n ∧
    (∀ t, t < n → L.getD t 0 = d.getD (predn n (sa.getD t 0)) 0) ∧
    L.Perm d := by
  have hsalen : sa.length = n := by rw [hperm.length_eq, List.length_range]
  have hfun : (fun idx => d.getD ((idx + sa.length - 1) % sa.length) 0) =
      (fun idx => d.getD (predn n idx) 0) := by
    funext idx
    rw [hsalen, predn]
  rw [hfun] at hL
  refine ⟨by rw [hL, List.length_map, hsalen], ?_, ?_⟩
  · intro t ht
    have ht' : t < sa.length := by omega
    rw [hL, List.getD_eq_getElem _ 0 (by simpa using ht'),
      List.getElem_map, List.getD_eq_getElem sa 0 ht']
  · have h1 : L.Perm ((List.range n).map (fun idx => d.getD (predn n idx) 0)) := by
      rw [hL]
      exact hperm.map _
    have h2 : (List.range n).map (fun idx => d.getD (predn n idx) 0) =
        ((List.range n).map (predn n)).map (fun j => d.getD j 0) := by
      rw [List.map_map]
      rfl
    have h3 : (((List.range n).map (predn n)).map (fun j => d.getD j 0)).Perm
        ((List.range n).map (fun j => d.getD j 0)) :=
      (map_predn_range_perm n).map _
    have h4 : (List.range n).map (fun j => d.getD j 0) = d := by
      rw [hnd]
      exact map_getD_range d
    rw [h2] at h1
    rw [h4] at h3
    exact h1.trans h3

lemma lex_cons_iff (a b : Nat) (A B : List Nat) :
    List.Lex (· < ·) (a :: A) (b :: B) ↔
      a < b ∨ (a = b ∧ List.Lex (· < ·) A B) := by
  constructor
  · intro h
    cases h with
    | cons h => exact Or.inr ⟨rfl, h⟩
    | rel h => exact Or.inl h
  · rintro (h | ⟨rfl, h⟩)
    · exact List.Lex.rel h
    · exact List.Lex.cons h

/-- The FL counting identity at the heart of inverse SBWT: when the text `d`
ends in its unique occurrence of the terminator 255 and `ord_` is injective,
the suffix-array position of the predecessor suffix of row `t` equals the
decoder's slot `cum (L_t) + occ t` for the last column `L`. -/
lemma fl_identity (ord_ : Nat → Nat) (hinj : Function.Injective ord_)
    (d sa L : List Nat) (n : Nat) (hn2 : 2 ≤ n) (hnd : n = d.length)
    (hterm : ∀ i, i < n → (d.getD i 0 = 255 ↔ i = n - 1))
    (hperm : sa.Perm (List.range n)) (hpw : sa.Pairwise (slt ord_ d))
    (hL : L = sa.map (fun idx => d.getD ((idx + sa.length - 1) % sa.length) 0))
    (t : Nat) (ht : t < n) :
    sa.indexOf (predn n (sa.getD t 0)) =
      cumulative_count ord_ L (L.getD t 0) + occ_at L t := by
  obtain ⟨hLlen, hLget, hLperm⟩ := L_facts d sa L n hnd hperm hL
  have hsalen : sa.length = n := by rw [hperm.length_eq, List.length_range]
  have hsanodup : sa.Nodup := hperm.nodup_iff.mpr (List.nodup_range n)
  have hsaD_lt : ∀ u, u < n → sa.getD u 0 < n := by
    intro u hu
    have hmem : sa.getD u 0 ∈ sa := getD_mem sa u (by omega)
    have := hperm.mem_iff.mp hmem
    simpa using this
  set c := L.getD t 0 with hc
  set i' := predn n (sa.getD t 0) with hi'
  have hi'lt : i' < n := predn_lt n _ (by omega)
  have hdi' : d.getD i' 0 = c := by
    rw [hi', hc]
    exact (hLget t ht).symm
  have hcL : c ∈ L := by
    rw [hc]
    exact getD_mem L t (by omega)
  have hpos := indexOf_eq_countP ord_ d sa n hperm hpw i' hi'lt
  have hsplit : ∀ j, j < n → (slt ord_ d j i' ↔
      (ord_ (d.getD j 0) < ord_ c ∨
        (d.getD j 0 = c ∧
          List.Lex (· < ·) (msfx ord_ d (j + 1)) (msfx ord_ d (i' + 1))))) := by
    intro j hj
    rw [slt, msfx_cons ord_ d j (by omega), msfx_cons ord_ d i' (by omega),
      hdi', lex_cons_iff]
    constructor
    · rintro (h | ⟨heq, h⟩)
      · exact Or.inl h
      · exact Or.inr ⟨hinj heq, h⟩
    · rintro (h | ⟨heq, h⟩)
      · exact Or.inl h
      · exact Or.inr ⟨congrArg ord_ heq, h⟩
  have h1 : (List.range n).countP (fun j => decide (slt ord_ d j i')) =
      (List.range n).countP (fun j =>
        decide (ord_ (d.getD j 0) < ord_ c) ||
        decide (d.getD j 0 = c ∧
          List.Lex (· < ·) (msfx ord_ d (j + 1)) (msfx ord_ d (i' + 1)))) := by
    refine List.countP_congr ?_
    intro j hj
    have hjn : j < n := by simpa using hj
    simp only [decide_eq_true_eq, Bool.or_eq_true]
    exact hsplit j hjn
  have h2 : (List.range n).countP (fun j =>
        decide (ord_ (d.getD j 0) < ord_ c) ||
        decide (d.getD j 0 = c ∧
          List.Lex (· < ·) (msfx ord_ d (j + 1)) (msfx ord_ d (i' + 1)))) =
      (List.range n).countP (fun j => decide (ord_ (d.getD j 0) < ord_ c)) +
      (List.range n).countP (fun j => decide (d.getD j 0 = c ∧
          List.Lex (· < ·) (msfx ord_ d (j + 1)) (msfx ord_ d (i' + 1)))) := by
    refine countP_or_disjoint _ _ _ ?_
    intro j _
    simp only [decide_eq_true_eq]
    rintro ⟨hlt, heq, -⟩
    rw [heq] at hlt
    exact lt_irrefl _ hlt
  have hA : (List.range n).countP (fun j => decide (ord_ (d.getD j 0) < ord_ c)) =
      cumulative_count ord_ L c := by
    have hd : d.countP (fun a => decide (ord_ a < ord_ c)) =
        (List.range n).countP (fun j => decide (ord_ (d.getD j 0) < ord_ c)) := by
      rw [countP_getD_range d (fun a => decide (ord_ a < ord_ c)), hnd]
    rw [← hd, ← hLperm.countP_eq, cumulative_count_spec ord_ hinj L c hcL]
  have hB : (List.range n).countP (fun j => decide (d.getD j 0 = c ∧
        List.Lex (· < ·) (msfx ord_ d (j + 1)) (msfx ord_ d (i' + 1)))) =
      occ_at L t := by
    by_cases hc255 : c = 255
    · -- the terminator is unique, so both the count and the rank vanish
      have hi'last : i' = n - 1 := (hterm i' hi'lt).mp (by rw [hdi', hc255])
      have hsaDt0 : sa.getD t 0 = 0 := by
        have hlt := hsaD_lt t ht
        have heq := predn_eq n (sa.getD t 0) hlt
        rw [← hi'] at heq
        by_contra hne
        rw [if_neg hne] at heq
        omega
      have hleft : (List.range n).countP (fun j => decide (d.getD j 0 = c ∧
          List.Lex (· < ·) (msfx ord_ d (j + 1)) (msfx ord_ d (i' + 1)))) = 0 := by
        refine List.countP_eq_zero.mpr ?_
        intro j hj
        have hjn : j < n := by simpa using hj
        simp only [decide_eq_true_eq]
        rintro ⟨hdj, hlex⟩
        have hjlast : j = n - 1 := (hterm j hjn).mp (by rw [hdj, hc255])
        have hj1 : j + 1 = d.length := by omega
        have hi1 : i' + 1 = d.length := by omega
        rw [hj1, hi1, msfx_nil] at hlex
        exact List.Lex.not_nil_right _ _ hlex
      have hocc : occ_at L t = 0 := by
        rw [occ_at, ← hc, List.count_eq_zero]
        intro hmem
        obtain ⟨u, hut, huL, hLu⟩ := mem_take_getD L t c hmem
        have hun : u < n := by omega
        have hLu2 := hLget u hun
        rw [hLu] at hLu2
        have hplt : predn n (sa.getD u 0) < n := predn_lt n _ (by omega)
        have hpl : predn n (sa.getD u 0) = n - 1 :=
          (hterm _ hplt).mp (by rw [← hLu2, hc255])
        have hsaDu0 : sa.getD u 0 = 0 := by
          have hlt := hsaD_lt u hun
          have heq := predn_eq n (sa.getD u 0) hlt
          by_contra hne
          rw [if_neg hne] at heq
          omega
        have := nodup_getD_inj sa hsanodup u t (by omega) (by omega)
          (by rw [hsaDu0, hsaDt0])
        omega
      rw [hleft, hocc]
    · -- c is a proper character: reindex rows by predecessor position
      have hsaDt_ne : sa.getD t 0 ≠ 0 := by
        intro h0
        have hlast : i' = n - 1 := by rw [hi', h0, predn_zero n (by omega)]
        have h255 : d.getD i' 0 = 255 := by
          rw [hlast]
          exact (hterm (n - 1) (by omega)).mpr rfl
        rw [hdi'] at h255
        exact hc255 h255
      have hi'succ : i' + 1 = sa.getD t 0 := by
        have hlt := hsaD_lt t ht
        have heq := predn_eq n (sa.getD t 0) hlt
        rw [← hi', if_neg hsaDt_ne] at heq
        omega
      have hg : ((List.range n).map (fun u => predn n (sa.getD u 0))).Perm
          (List.range n) := by
        have e1 : (List.range n).map (fun u => predn n (sa.getD u 0)) =
            ((List.range n).map (fun u => sa.getD u 0)).map (predn n) := by
          rw [List.map_map]
          rfl
        have e2 : (List.range n).map (fun u => sa.getD u 0) = sa := by
          rw [← hsalen]
          exact map_getD_range sa
        rw [e1, e2]
        exact (hperm.map (predn n)).trans (map_predn_range_perm n)
      have hre2 : (List.range n).countP (fun u =>
          decide (d.getD (predn n (sa.getD u 0)) 0 = c ∧
            List.Lex (· < ·) (msfx ord_ d (predn n (sa.getD u 0) + 1))
              (msfx ord_ d (i' + 1)))) =
          (List.range n).countP (fun j => decide (d.getD j 0 = c ∧
            List.Lex (· < ·) (msfx ord_ d (j + 1)) (msfx ord_ d (i' + 1)))) :=
        countP_reindex n (fun u => predn n (sa.getD u 0)) hg
          (fun j => decide (d.getD j 0 = c ∧
            List.Lex (· < ·) (msfx ord_ d (j + 1)) (msfx ord_ d (i' + 1))))
      rw [← hre2]
      have hstep : (List.range n).countP (fun u =>
          decide (d.getD (predn n (sa.getD u 0)) 0 = c ∧
            List.Lex (· < ·) (msfx ord_ d (predn n (sa.getD u 0) + 1))
              (msfx ord_ d (i' + 1)))) =
          (List.range n).countP (fun u =>
            decide (u < t) && decide (L.getD u 0 = c)) := by
        refine List.countP_congr ?_
        intro u hu
        have hun : u < n := by simpa using hu
        have hLu : L.getD u 0 = d.getD (predn n (sa.getD u 0)) 0 := hLget u hun
        have hkey : d.getD (predn n (sa.getD u 0)) 0 = c →
            predn n (sa.getD u 0) + 1 = sa.getD u 0 := by
          intro hdc
          have hne0 : sa.getD u 0 ≠ 0 := by
            intro h0
            rw [h0, predn_zero n (by omega)] at hdc
            have h255 := (hterm (n - 1) (by omega)).mpr rfl
            rw [h255] at hdc
            exact hc255 hdc.symm
          have hlt := hsaD_lt u hun
          have heq := predn_eq n (sa.getD u 0) hlt
          rw [if_neg hne0] at heq
          omega
        simp only [decide_eq_true_eq, Bool.and_eq_true]
        constructor
        · rintro ⟨hdc, hlex⟩
          refine ⟨?_, by rw [hLu, hdc]⟩
          rw [hkey hdc, hi'succ] at hlex
          exact (slt_get_iff ord_ d sa hpw u t (by omega) (by omega)).mp hlex
        · rintro ⟨hut, hLuc⟩
          have hdc : d.getD (predn n (sa.getD u 0)) 0 = c := by
            rw [← hLu]
            exact hLuc
          refine ⟨hdc, ?_⟩
          rw [hkey hdc, hi'succ]
          exact (slt_get_iff ord_ d sa hpw u t (by omega) (by omega)).mpr hut
      rw [hstep]
      have hrestrict := countP_range_lt t (fun u => decide (L.getD u 0 = c)) (n - t)
      rw [show t + (n - t) = n from by omega] at hrestrict
      rw [hrestrict, ← count_take_eq_countP_range L t (by omega) c, occ_at, ← hc]
  rw [hpos, h1, h2, hA, hB]

/-- The decoder's `t` array sends the row of suffix `predn n m` to the row of
suffix `m`: one application of the FL map walks the text forward. -/
lemma t_step (ord_ : Nat → Nat) (hinj : Function.Injective ord_)
    (d sa L : List Nat) (n : Nat) (hn2 : 2 ≤ n) (hnd : n = d.length)
    (hterm : ∀ i, i < n → (d.getD i 0 = 255 ↔ i = n - 1))
    (hperm : sa.Perm (List.range n)) (hpw : sa.Pairwise (slt ord_ d))
    (hL : L = sa.map (fun idx => d.getD ((idx + sa.length - 1) % sa.length) 0))
    (m : Nat) (hm : m < n) :
    (build_t (cumulative_count ord_ L) L).getD
      (sa.indexOf (predn n m)) 0 = sa.indexOf m := by
  have hsalen : sa.length = n := by rw [hperm.length_eq, List.length_range]
  have hLlen : L.length = n := (L_facts d sa L n hnd hperm hL).1
  obtain ⟨hlt, hval⟩ := indexOf_facts sa n hperm m hm
  have hfl := fl_identity ord_ hinj d sa L n hn2 hnd hterm hperm hpw hL
    (sa.indexOf m) (by omega)
  rw [hval] at hfl
  rw [hfl]
  exact build_t_assigned ord_ hinj L (sa.indexOf m) (by omega)

lemma decode_loop_succ (t L : List Nat) (steps idx idx2 c : Nat)
    (h1 : t.get? idx = some idx2) (h2 : L.get? idx2 = some c) :
    decode_loop t L (steps + 1) idx =
      (decode_loop t L steps idx2).map (fun l => c :: l) := by
  simp only [decode_loop, h1, h2]

/-- Running the reconstruction loop for `steps` steps from the row of suffix
`k` yields the text characters `d k, d (k+1), …` in order. -/
lemma decode_run (ord_ : Nat → Nat) (hinj : Function.Injective ord_)
    (d sa L : List Nat) (n : Nat) (hn2 : 2 ≤ n) (hnd : n = d.length)
    (hterm : ∀ i, i < n → (d.getD i 0 = 255 ↔ i = n - 1))
    (hperm : sa.Perm (List.range n)) (hpw : sa.Pairwise (slt ord_ d))
    (hL : L = sa.map (fun idx => d.getD ((idx + sa.length - 1) % sa.length) 0)) :
    ∀ steps k, k + steps = n - 1 →
      decode_loop (build_t (cumulative_count ord_ L) L) L steps (sa.indexOf k) =
        some ((List.range steps).map (fun u => d.getD (k + u) 0)) := by
  have hsalen : sa.length = n := by rw [hperm.length_eq, List.length_range]
  obtain ⟨hLlen, hLget, hLperm⟩ := L_facts d sa L n hnd hperm hL
  have htlen : (build_t (cumulative_count ord_ L) L).length = n := by
    rw [build_t, build_t_go_length, List.length_replicate, hLlen]
  intro steps
  induction steps with
  | zero =>
    intro k hk
    rw [decode_loop]
    rfl
  | succ s ih =>
    intro k hk
    have hk1 : k + 1 < n := by omega
    have hkn : k < n := by omega
    have hidxlt : sa.indexOf k < n := by
      have := (indexOf_facts sa n hperm k hkn).1
      omega
    have hidx2lt : sa.indexOf (k + 1) < n := by
      have := (indexOf_facts sa n hperm (k + 1) hk1).1
      omega
    have hget1 : (build_t (cumulative_count ord_ L) L).get? (sa.indexOf k) =
        some (sa.indexOf (k + 1)) := by
      rw [List.get?_eq_getElem?, List.getElem?_eq_getElem (by omega),
        ← List.getD_eq_getElem _ 0 (by omega)]
      have hts := t_step ord_ hinj d sa L n hn2 hnd hterm hperm hpw hL
        (k + 1) hk1
      rw [predn_succ n k hk1] at hts
      rw [hts]
    have hget2 : L.get? (sa.indexOf (k + 1)) = some (d.getD k 0) := by
      rw [List.get?_eq_getElem?, List.getElem?_eq_getElem (by omega),
        ← List.getD_eq_getElem L 0 (by omega)]
      rw [hLget (sa.indexOf (k + 1)) hidx2lt,
        (indexOf_facts sa n hperm (k + 1) hk1).2, predn_succ n k hk1]
    rw [decode_loop_succ _ _ s _ _ _ hget1 hget2, ih (k + 1) (by omega),
      Option.map_some']
    congr 1
    rw [List.range_succ_eq_map, List.map_cons, List.map_map]
    congr 1
    refine List.map_congr_left (fun u _ => ?_)
    show d.getD (k + 1 + u) 0 = d.getD (k + (u + 1)) 0
    rw [show k + 1 + u = k + (u + 1) from by omega]

/-- C2 (amended): for every non-empty input that does not already contain
the terminator byte 255 and every injective key order, decoding the
key-scrambled BWT output `(last_column, orig_ptr)` of `sbwt_encode` with the
same key restores the original input exactly, the appended terminator being
stripped by the decoder's final step.  (The claim's unconditional round-trip
over arbitrary bytes is refuted by `sbwt_roundtrip_counterexample`.) -/
theorem sbwt_roundtrip (ord_ : Nat → Nat) (hinj : Function.Injective ord_)
    (x : List Nat) (hne : x ≠ []) (hff : 255 ∉ x) :
    sbwt_decode ord_ (sbwt_encode ord_ x).1 (sbwt_encode ord_ x).2 =
      some x := by
  have hxlast : ¬ (x.getLast? = some 255) := by
    intro h
    exact hff (List.mem_of_mem_getLast? h)
  have hxlen : 1 ≤ x.length := by
    rcases x with _ | ⟨a, xs⟩
    · exact absurd rfl hne
    · simp
  set d := x ++ [255] with hd
  have hdlen : d.length = x.length + 1 := by
    rw [hd, List.length_append, List.length_singleton]
  have hn2 : 2 ≤ d.length := by omega
  have hterm : ∀ i, i < d.length → (d.getD i 0 = 255 ↔ i = d.length - 1) := by
    intro i hi
    rcases Nat.lt_or_ge i x.length with hix | hix
    · have hget : d.getD i 0 = x.getD i 0 := by
        rw [hd]
        exact List.getD_append x [255] 0 i hix
      constructor
      · intro h255
        exfalso
        apply hff
        rw [← h255, hget]
        exact getD_mem x i hix
      · intro hlast
        exfalso
        omega
    · have hieq : i = x.length := by omega
      have hget : d.getD i 0 = 255 := by
        rw [hd, hieq, List.getD_append_right x [255] 0 x.length (le_refl _)]
        simp
      rw [hget]
      constructor
      · intro _
        omega
      · intro _
        rfl
  set sa := build_suffix_array ord_ d with hsa
  obtain ⟨hperm, hpw⟩ :
      sa.Perm (List.range d.length) ∧ sa.Pairwise (slt ord_ d) := by
    rw [hsa]
    exact build_suffix_array_spec ord_ d
  set L := sa.map (fun idx => d.getD ((idx + sa.length - 1) % sa.length) 0)
    with hLdef
  have henc : sbwt_encode ord_ x = (L, sa.indexOf 0) := by
    rw [hLdef, hsa, hd]
    simp only [sbwt_encode]
    rw [if_neg hxlast]
  obtain ⟨hLlen, hLget, hLperm⟩ := L_facts d sa L d.length rfl hperm hLdef
  have hrun := decode_run ord_ hinj d sa L d.length hn2 rfl hterm hperm hpw
    hLdef (d.length - 1) 0 (by omega)
  have hmapx : (List.range (d.length - 1)).map (fun u => d.getD (0 + u) 0) =
      x := by
    have hlen1 : d.length - 1 = x.length := by omega
    rw [hlen1]
    have hcg : ∀ u ∈ List.range x.length, d.getD (0 + u) 0 = x.getD u 0 := by
      intro u hu
      have hux : u < x.length := by simpa using hu
      rw [Nat.zero_add, hd]
      exact List.getD_append x [255] 0 u hux
    rw [List.map_congr_left hcg, map_getD_range x]
  have hrun2 : decode_loop (build_t (cumulative_count ord_ L) L) L
      (L.length - 1) (sa.indexOf 0) = some x := by
    rw [hLlen, hrun, hmapx]
  rw [henc]
  show sbwt_decode ord_ L (sa.indexOf 0) = some x
  simp only [sbwt_decode]
  rw [hrun2]
  show some (if x.getLast? = some 255 then x.dropLast else x) = some x
  rw [if_neg hxlast]

theorem sbwt_roundtrip_witness :
    Function.Injective (fun c : Nat => c) ∧ [97] ≠ ([] : List Nat) ∧
      255 ∉ [97] ∧
      sbwt_decode (fun c => c) (sbwt_encode (fun c => c) [97]).1
        (sbwt_encode (fun c => c) [97]).2 = some [97] :=
  ⟨fun a b h => h, by decide, by decide,
    sbwt_roundtrip (fun c => c) (fun a b h => h) [97] (by decide) (by decide)⟩

/-- Embedding of `HuffmanNode` (huffman.py lines 14-26): a leaf carries a
symbol and its frequency, an internal node carries the merged frequency and
two children (`merged.left`/`merged.right` are always set in the source, and
`symbol is None` exactly on internal nodes). -/
inductive HTree where
  | leaf (symbol : Nat) (freq : Nat)
  | node (freq : Nat) (left : HTree) (right : HTree)
deriving DecidableEq

def HTree.freq : HTree → Nat
  | .leaf _ f => f
  | .node f _ _ => f

/-- `HuffmanNode.__lt__` (huffman.py line 25-26): heap ordering compares
frequencies only. -/
def hlt (a b : HTree) : Bool := a.freq < b.freq

def hdefault : HTree := .leaf 0 0

/-- Embedding of CPython `heapq._siftdown(heap, startpos, pos)` with the
moving item passed explicitly (the source reads `newitem = heap[pos]` once
and writes it back at the final position). -/
def siftdown_go (newitem : HTree) (heap : List HTree)
    (startpos pos : Nat) : List HTree :=
  if h : startpos < pos ∧
      hlt newitem (heap.getD ((pos - 1) / 2) hdefault) = true then
    siftdown_go newitem (heap.set pos (heap.getD ((pos - 1) / 2) hdefault))
      startpos ((pos - 1) / 2)
  else
    heap.set pos newitem
termination_by pos
decreasing_by
  have := Nat.div_le_self (pos - 1) 2
  omega

lemma siftdown_go_exit (newitem : HTree) (heap : List HTree)
    (startpos pos : Nat)
    (h : ¬ (startpos < pos ∧
      hlt newitem (heap.getD ((pos - 1) / 2) hdefault) = true)) :
    siftdown_go newitem heap startpos pos = heap.set pos newitem := by
  rw [siftdown_go, dif_neg h]

lemma siftdown_go_step (newitem : HTree) (heap : List HTree)
    (startpos pos : Nat)
    (h : startpos < pos ∧
      hlt newitem (heap.getD ((pos - 1) / 2) hdefault) = true) :
    siftdown_go newitem heap startpos pos =
      siftdown_go newitem
        (heap.set pos (heap.getD ((pos - 1) / 2) hdefault))
        startpos ((pos - 1) / 2) := by
  rw [siftdown_go, dif_pos h]

/-- Embedding of CPython `heapq._siftup(heap, pos)`: bubble the smaller
child up until reaching a leaf position, then sift the saved item down. -/
def siftup_go (newitem : HTree) (heap : List HTree)
    (startpos pos : Nat) : List HTree :=
  if h : 2 * pos + 1 < heap.length then
    if 2 * pos + 2 < heap.length ∧
        hlt (heap.getD (2 * pos + 1) hdefault)
          (heap.getD (2 * pos + 2) hdefault) = false then
      siftup_go newitem (heap.set pos (heap.getD (2 * pos + 2) hdefault))
        startpos (2 * pos + 2)
    else
      siftup_go newitem (heap.set pos (heap.getD (2 * pos + 1) hdefault))
        startpos (2 * pos + 1)
  else
    siftdown_go newitem (heap.set pos newitem) startpos pos
termination_by heap.length - pos
decreasing_by
  · simp only [List.length_set]
    omega
  · simp only [List.length_set]
    omega

lemma siftup_go_exit (newitem : HTree) (heap : List HTree)
    (startpos pos : Nat) (h : ¬ 2 * pos + 1 < heap.length) :
    siftup_go newitem heap startpos pos =
      siftdown_go newitem (heap.set pos newitem) startpos pos := by
  rw [siftup_go, dif_neg h]

lemma siftup_go_step_right (newitem : HTree) (heap : List HTree)
    (startpos pos : Nat) (h : 2 * pos + 1 < heap.length)
    (h2 : 2 * pos + 2 < heap.length ∧
      hlt (heap.getD (2 * pos + 1) hdefault)
        (heap.getD (2 * pos + 2) hdefault) = false) :
    siftup_go newitem heap startpos pos =
      siftup_go newitem (heap.set pos (heap.getD (2 * pos + 2) hdefault))
        startpos (2 * pos + 2) := by
  rw [siftup_go, dif_pos h, if_pos h2]

lemma siftup_go_step_left (newitem : HTree) (heap : List HTree)
    (startpos pos : Nat) (h : 2 * pos + 1 < heap.length)
    (h2 : ¬ (2 * pos + 2 < heap.length ∧
      hlt (heap.getD (2 * pos + 1) hdefault)
        (heap.getD (2 * pos + 2) hdefault) = false)) :
    siftup_go newitem heap startpos pos =
      siftup_go newitem (heap.set pos (heap.getD (2 * pos + 1) hdefault))
        startpos (2 * pos + 1) := by
  rw [siftup_go, dif_pos h, if_neg h2]

def siftup (heap : List HTree) (pos : Nat) : List HTree :=
  siftup_go (heap.getD pos hdefault) heap pos pos

/-- `heapq.heappush`: append, then sift the new last element towards the
root. -/
def heappush (heap : List HTree) (item : HTree) : List HTree :=
  siftdown_go item (heap ++ [item]) 0 heap.length

/-- `heapq.heappop`: take the last element, move it to the root, sift it
down; `none` models the IndexError of `pop` on an empty list. -/
def heappop (heap : List HTree) : Option (HTree × List HTree) :=
  match heap.getLast? with
  | none => none
  | some lastelt =>
    if heap.dropLast.isEmpty then some (lastelt, heap.dropLast)
    else some (heap.dropLast.getD 0 hdefault,
      siftup (heap.dropLast.set 0 lastelt) 0)

/-- `heapq.heapify`: sift positions `n/2 - 1, …, 0` in turn. -/
def heapify_go (heap : List HTree) : Nat → List HTree
  | 0 => heap
  | i + 1 => heapify_go (siftup heap i) i

def heapify (heap : List HTree) : List HTree :=
  heapify_go heap (heap.length / 2)

lemma siftdown_go_length (newitem : HTree) (startpos : Nat) :
    ∀ pos heap,
      (siftdown_go newitem heap startpos pos).length = heap.length := by
  intro pos
  induction pos using Nat.strong_induction_on with
  | _ pos ih =>
    intro heap
    by_cases h : startpos < pos ∧
        hlt newitem (heap.getD ((pos - 1) / 2) hdefault) = true
    · rw [siftdown_go_step newitem heap startpos pos h,
        ih ((pos - 1) / 2) (by have := Nat.div_le_self (pos - 1) 2; omega)]
      simp
    · rw [siftdown_go_exit newitem heap startpos pos h]
      simp

lemma siftup_go_length (newitem : HTree) (startpos : Nat) :
    ∀ fuel pos heap, heap.length - pos ≤ fuel →
      (siftup_go newitem heap startpos pos).length = heap.length := by
  intro fuel
  induction fuel with
  | zero =>
    intro pos heap hf
    rw [siftup_go_exit newitem heap startpos pos (by omega),
      siftdown_go_length]
    simp
  | succ f ih =>
    intro pos heap hf
    by_cases h : 2 * pos + 1 < heap.length
    · by_cases h2 : 2 * pos + 2 < heap.length ∧
          hlt (heap.getD (2 * pos + 1) hdefault)
            (heap.getD (2 * pos + 2) hdefault) = false
      · rw [siftup_go_step_right newitem heap startpos pos h h2,
          ih (2 * pos + 2) _ (by simp only [List.length_set]; omega)]
        simp
      · rw [siftup_go_step_left newitem heap startpos pos h h2,
          ih (2 * pos + 1) _ (by simp only [List.length_set]; omega)]
        simp
    · rw [siftup_go_exit newitem heap startpos pos h, siftdown_go_length]
      simp

lemma siftup_length (heap : List HTree) (pos : Nat) :
    (siftup heap pos).length = heap.length := by
  rw [siftup, siftup_go_length _ _ (heap.length - pos) _ _ (le_refl _)]

lemma heappush_length (heap : List HTree) (item : HTree) :
    (heappush heap item).length = heap.length + 1 := by
  rw [heappush, siftdown_go_length]
  simp

lemma heappop_length (heap : List HTree) (it : HTree) (rest : List HTree)
    (h : heappop heap = some (it, rest)) :
    rest.length = heap.length - 1 := by
  rw [heappop] at h
  match hlast : heap.getLast? with
  | none => rw [hlast] at h; exact absurd h (by simp)
  | some lastelt =>
    rw [hlast] at h
    dsimp only at h
    by_cases hemp : heap.dropLast.isEmpty
    · rw [if_pos hemp] at h
      simp only [Option.some.injEq, Prod.mk.injEq] at h
      rw [← h.2, List.length_dropLast]
    · rw [if_neg hemp] at h
      simp only [Option.some.injEq, Prod.mk.injEq] at h
      rw [← h.2, siftup_length, List.length_set, List.length_dropLast]

lemma count_singleton_ite_h (a b : HTree) :
    List.count a [b] = if b = a then 1 else 0 := by
  by_cases hab : b = a
  · rw [List.count_singleton', if_pos hab]
  · rw [List.count_singleton', if_neg hab]

lemma count_set_h (l : List HTree) (i : Nat) (hi : i < l.length)
    (y m : HTree) :
    (l.set i y).count m + (if l.getD i hdefault = m then 1 else 0) =
      l.count m + (if y = m then 1 else 0) := by
  have hdecomp : l = l.take i ++ [l.getD i hdefault] ++ l.drop (i + 1) := by
    conv_lhs => rw [← List.take_append_drop i l]
    rw [List.drop_eq_getElem_cons hi, List.getD_eq_getElem l hdefault hi]
    simp
  have hset : l.set i y = l.take i ++ [y] ++ l.drop (i + 1) := by
    rw [List.set_eq_take_cons_drop y hi]
    simp
  rw [hset]
  conv_rhs => rw [hdecomp]
  rw [List.count_append, List.count_append, List.count_append,
    List.count_append, count_singleton_ite_h, count_singleton_ite_h]
  omega

lemma set_set_swap_perm (l : List HTree) (i j : Nat) (hi : i < l.length)
    (hj : j < l.length) (hne : i ≠ j) (x : HTree) :
    ((l.set i (l.getD j hdefault)).set j x).Perm (l.set i x) := by
  refine List.perm_iff_count.mpr ?_
  intro m
  have h1 := count_set_h (l.set i (l.getD j hdefault)) j
    (by simpa using hj) x m
  have h2 := count_set_h l i hi (l.getD j hdefault) m
  have h3 := count_set_h l i hi x m
  have hgd : (l.set i (l.getD j hdefault)).getD j hdefault =
      l.getD j hdefault := by
    rw [List.getD_eq_getElem?_getD, List.getElem?_set_ne hne,
      ← List.getD_eq_getElem?_getD]
  rw [hgd] at h1
  omega

lemma set_getD_self (l : List HTree) (i : Nat) (hi : i < l.length) :
    l.set i (l.getD i hdefault) = l := by
  refine List.ext_get (by simp) ?_
  intro k h1 h2
  simp only [List.get_eq_getElem, List.getElem_set]
  split
  · rename_i hk
    subst hk
    rw [List.getD_eq_getElem l hdefault hi]
  · rfl

lemma siftdown_go_perm (newitem : HTree) (startpos : Nat) :
    ∀ pos heap, pos < heap.length →
      (siftdown_go newitem heap startpos pos).Perm
        (heap.set pos newitem) := by
  intro pos
  induction pos using Nat.strong_induction_on with
  | _ pos ih =>
    intro heap hpos
    by_cases h : startpos < pos ∧
        hlt newitem (heap.getD ((pos - 1) / 2) hdefault) = true
    · rw [siftdown_go_step newitem heap startpos pos h]
      have hp2 : (pos - 1) / 2 < pos := by
        have := Nat.div_le_self (pos - 1) 2
        omega
      have hrec := ih ((pos - 1) / 2)
        hp2 (heap.set pos (heap.getD ((pos - 1) / 2) hdefault))
        (by simp; omega)
      refine hrec.trans ?_
      exact set_set_swap_perm heap pos ((pos - 1) / 2) hpos (by omega)
        (by omega) newitem
    · rw [siftdown_go_exit newitem heap startpos pos h]

lemma siftup_go_perm (newitem : HTree) (startpos : Nat) :
    ∀ fuel pos heap, heap.length - pos ≤ fuel → pos < heap.length →
      (siftup_go newitem heap startpos pos).Perm
        (heap.set pos newitem) := by
  intro fuel
  induction fuel with
  | zero =>
    intro pos heap hf hpos
    rw [siftup_go_exit newitem heap startpos pos (by omega)]
    have := siftdown_go_perm newitem startpos pos (heap.set pos newitem)
      (by simpa using hpos)
    rw [List.set_set] at this
    exact this
  | succ f ih =>
    intro pos heap hf hpos
    by_cases h : 2 * pos + 1 < heap.length
    · by_cases h2 : 2 * pos + 2 < heap.length ∧
          hlt (heap.getD (2 * pos + 1) hdefault)
            (heap.getD (2 * pos + 2) hdefault) = false
      · rw [siftup_go_step_right newitem heap startpos pos h h2]
        have hrec := ih (2 * pos + 2)
          (heap.set pos (heap.getD (2 * pos + 2) hdefault))
          (by simp only [List.length_set]; omega)
          (by simp only [List.length_set]; omega)
        refine hrec.trans ?_
        exact set_set_swap_perm heap pos (2 * pos + 2) hpos (by omega)
          (by omega) newitem
      · rw [siftup_go_step_left newitem heap startpos pos h h2]
        have hrec := ih (2 * pos + 1)
          (heap.set pos (heap.getD (2 * pos + 1) hdefault))
          (by simp only [List.length_set]; omega)
          (by simp only [List.length_set]; omega)
        refine hrec.trans ?_
        exact set_set_swap_perm heap pos (2 * pos + 1) hpos (by omega)
          (by omega) newitem
    · rw [siftup_go_exit newitem heap startpos pos h]
      have := siftdown_go_perm newitem startpos pos (heap.set pos newitem)
        (by simpa using hpos)
      rw [List.set_set] at this
      exact this

lemma siftup_perm (heap : List HTree) (pos : Nat) (hpos : pos < heap.length) :
    (siftup heap pos).Perm heap := by
  rw [siftup]
  have := siftup_go_perm (heap.getD pos hdefault) pos (heap.length - pos)
    pos heap (le_refl _) hpos
  rw [set_getD_self heap pos hpos] at this
  exact this

lemma heappush_perm (heap : List HTree) (item : HTree) :
    (heappush heap item).Perm (heap ++ [item]) := by
  rw [heappush]
  have hlen : heap.length < (heap ++ [item]).length := by simp
  have := siftdown_go_perm item 0 heap.length (heap ++ [item]) hlen
  have hgd : (heap ++ [item]).getD heap.length hdefault = item := by
    rw [List.getD_eq_getElem _ _ hlen]
    simp
  have hself := set_getD_self (heap ++ [item]) heap.length hlen
  rw [hgd] at hself
  rw [hself] at this
  exact this

lemma heappop_perm (heap : List HTree) (it : HTree) (rest : List HTree)
    (h : heappop heap = some (it, rest)) : (it :: rest).Perm heap := by
  rw [heappop] at h
  match hlast : heap.getLast? with
  | none => rw [hlast] at h; exact absurd h (by simp)
  | some lastelt =>
    rw [hlast] at h
    dsimp only at h
    obtain ⟨ys, hys⟩ := List.getLast?_eq_some_iff.mp hlast
    have hdl : heap.dropLast = ys := by
      rw [hys]
      simp
    by_cases hemp : heap.dropLast.isEmpty
    · rw [if_pos hemp] at h
      simp only [Option.some.injEq, Prod.mk.injEq] at h
      have hnil : heap.dropLast = [] := List.isEmpty_iff.mp hemp
      rw [← h.1, ← h.2, hnil, hys, ← hdl, hnil]
      rfl
    · rw [if_neg hemp] at h
      simp only [Option.some.injEq, Prod.mk.injEq] at h
      have hne : heap.dropLast ≠ [] := by
        intro h0
        rw [h0] at hemp
        exact hemp rfl
      have hperm1 : (siftup (heap.dropLast.set 0 lastelt) 0).Perm
          (heap.dropLast.set 0 lastelt) :=
        siftup_perm _ 0
          (by rw [List.length_set]; exact List.length_pos.mpr hne)
      rw [← h.1, ← h.2]
      refine (List.Perm.cons _ hperm1).trans ?_
      rcases hdl2 : heap.dropLast with _ | ⟨r0, rtail⟩
      · exact absurd hdl2 hne
      · have hheap2 : heap = (r0 :: rtail) ++ [lastelt] := by
          rw [hys, ← hdl, hdl2]
        rw [hheap2]
        simp only [List.getD_cons_zero, List.set_cons_zero]
        refine List.Perm.cons r0 ?_
        exact (List.perm_append_singleton lastelt rtail).symm

lemma heapify_go_perm :
    ∀ (i : Nat) (heap : List HTree), i ≤ heap.length →
      (heapify_go heap i).Perm heap := by
  intro i
  induction i with
  | zero => intro heap _; rfl
  | succ j ih =>
    intro heap hle
    rw [heapify_go]
    have hperm1 : (siftup heap j).Perm heap := siftup_perm heap j (by omega)
    have hlen : (siftup heap j).length = heap.length := siftup_length heap j
    exact (ih (siftup heap j) (by omega)).trans hperm1

lemma heapify_perm (heap : List HTree) : (heapify heap).Perm heap := by
  rw [heapify]
  exact heapify_go_perm (heap.length / 2) heap
    (Nat.div_le_self heap.length 2)

/-- The symbols stored at the leaves of a Huffman tree, left to right. -/
def HTree.symbols : HTree → List Nat
  | .leaf s _ => [s]
  | .node _ l r => l.symbols ++ r.symbols

def heap_symbols (heap : List HTree) : List Nat :=
  heap.flatMap HTree.symbols

lemma heappop_ne_none (heap : List HTree) (hne : heap ≠ []) :
    ∃ p, heappop heap = some p := by
  rw [heappop]
  cases hlast : heap.getLast? with
  | none => exact absurd (List.getLast?_eq_none_iff.mp hlast) hne
  | some lastelt =>
    dsimp only
    by_cases hemp : heap.dropLast.isEmpty
    · rw [if_pos hemp]
      exact ⟨_, rfl⟩
    · rw [if_neg hemp]
      exact ⟨_, rfl⟩

/-- Embedding of the merge loop of `build_huffman_tree` (huffman.py lines
49-58): while the heap has more than one node, pop two, push their merge;
finally return `heap[0]` (`none` models the IndexError on an empty heap). -/
def bht_loop (heap : List HTree) : Option HTree :=
  if h : 1 < heap.length then
    match h1 : heappop heap with
    | none => none
    | some (left, heap1) =>
      match h2 : heappop heap1 with
      | none => none
      | some (right, heap2) =>
        bht_loop (heappush heap2 (.node (left.freq + right.freq) left right))
  else heap.head?
termination_by heap.length
decreasing_by
  rw [heappush_length, heappop_length heap1 right heap2 h2,
    heappop_length heap left heap1 h1]
  omega

lemma bht_loop_exit (heap : List HTree) (h : ¬ 1 < heap.length) :
    bht_loop heap = heap.head? := by
  rw [bht_loop, dif_neg h]

lemma bht_loop_step (heap : List HTree) (h : 1 < heap.length)
    (left right : HTree) (heap1 heap2 : List HTree)
    (h1 : heappop heap = some (left, heap1))
    (h2 : heappop heap1 = some (right, heap2)) :
    bht_loop heap =
      bht_loop (heappush heap2
        (.node (left.freq + right.freq) left right)) := by
  rw [bht_loop, dif_pos h]
  split
  · rename_i heq
    rw [heq] at h1
    exact absurd h1 (by simp)
  · rename_i l' hp1' heq
    rw [heq] at h1
    simp only [Option.some.injEq, Prod.mk.injEq] at h1
    obtain ⟨hl, hh1⟩ := h1
    subst hl
    subst hh1
    split
    · rename_i heq2
      rw [heq2] at h2
      exact absurd h2 (by simp)
    · rename_i r' hp2' heq2
      rw [heq2] at h2
      simp only [Option.some.injEq, Prod.mk.injEq] at h2
      obtain ⟨hr, hh2⟩ := h2
      subst hr
      subst hh2
      rfl

lemma bht_loop_spec :
    ∀ fuel heap, heap.length ≤ fuel → heap ≠ [] →
      ∃ root, bht_loop heap = some root ∧
        root.symbols.Perm (heap_symbols heap) := by
  intro fuel
  induction fuel with
  | zero =>
    intro heap hf hne
    exact absurd (List.length_eq_zero.mp (by omega)) hne
  | succ f ih =>
    intro heap hf hne
    by_cases h : 1 < heap.length
    · obtain ⟨⟨left, heap1⟩, h1⟩ := heappop_ne_none heap hne
      have hlen1 : heap1.length = heap.length - 1 :=
        heappop_length heap left heap1 h1
      have hne1 : heap1 ≠ [] := by
        intro h0
        rw [h0] at hlen1
        simp at hlen1
        omega
      obtain ⟨⟨right, heap2⟩, h2⟩ := heappop_ne_none heap1 hne1
      have hlen2 : heap2.length = heap1.length - 1 :=
        heappop_length heap1 right heap2 h2
      rw [bht_loop_step heap h left right heap1 heap2 h1 h2]
      obtain ⟨root, hroot, hperm⟩ := ih
        (heappush heap2 (.node (left.freq + right.freq) left right))
        (by rw [heappush_length]; omega)
        (by
          intro h0
          have := congrArg List.length h0
          rw [heappush_length] at this
          simp at this)
      refine ⟨root, hroot, hperm.trans ?_⟩
      have hp1 : (heap_symbols (left :: heap1)).Perm (heap_symbols heap) :=
        (heappop_perm heap left heap1 h1).flatMap_right _
      have hp2 : (heap_symbols (right :: heap2)).Perm (heap_symbols heap1) :=
        (heappop_perm heap1 right heap2 h2).flatMap_right _
      have hp3 : (heap_symbols (heappush heap2
          (.node (left.freq + right.freq) left right))).Perm
          (heap_symbols (heap2 ++
            [HTree.node (left.freq + right.freq) left right])) :=
        (heappush_perm heap2 _).flatMap_right _
      have e1 : heap_symbols (heap2 ++
          [HTree.node (left.freq + right.freq) left right]) =
          heap_symbols heap2 ++ (left.symbols ++ right.symbols) := by
        rw [heap_symbols, List.flatMap_append]
        simp [heap_symbols, HTree.symbols]
      have e2 : heap_symbols (left :: heap1) =
          left.symbols ++ heap_symbols heap1 := rfl
      have e3 : heap_symbols (right :: heap2) =
          right.symbols ++ heap_symbols heap2 := rfl
      refine (hp3.trans ?_)
      rw [e1]
      refine (List.perm_append_comm).trans ?_
      refine List.Perm.trans ?_ hp1
      rw [e2]
      rw [List.append_assoc]
      refine List.Perm.append_left left.symbols ?_
      refine List.Perm.trans ?_ hp2
      rw [e3]
    · rcases heap with _ | ⟨h0, rest⟩
      · exact absurd rfl hne
      · have hrest : rest = [] := by
          refine List.length_eq_zero.mp ?_
          have hlen := List.length_cons h0 rest
          omega
        subst hrest
        refine ⟨h0, ?_, ?_⟩
        · rw [bht_loop_exit _ h]
          rfl
        · rw [heap_symbols]
          simp

/-- Embedding of `build_huffman_tree` (huffman.py lines 31-58):
`Counter(data).items()` lists each distinct symbol in first-appearance
order with its count; the initial heap holds one leaf per distinct
symbol. -/
def build_huffman_tree (data : List Nat) : Option HTree :=
  bht_loop (heapify ((py_first_dedup data).map
    (fun s => HTree.leaf s (data.count s))))

lemma heap_symbols_leaves (l : List Nat) (f : Nat → Nat) :
    heap_symbols (l.map (fun s => HTree.leaf s (f s))) = l := by
  induction l with
  | nil => rfl
  | cons a rest ih =>
    rw [List.map_cons, heap_symbols, List.flatMap_cons]
    rw [heap_symbols] at ih
    rw [ih]
    rfl

lemma build_huffman_tree_spec (data : List Nat) (hne : data ≠ []) :
    ∃ root, build_huffman_tree data = some root ∧
      root.symbols.Perm (py_first_dedup data) := by
  set heap0 := (py_first_dedup data).map
    (fun s => HTree.leaf s (data.count s)) with hheap0
  have hd_ne : py_first_dedup data ≠ [] := by
    rcases data with _ | ⟨a, rest⟩
    · exact absurd rfl hne
    · intro h0
      have : a ∈ py_first_dedup (a :: rest) :=
        (py_first_dedup_mem _ a).mpr (by simp)
      rw [h0] at this
      exact absurd this (by simp)
  have hne0 : heap0 ≠ [] := by
    rw [hheap0]
    intro h0
    exact hd_ne (List.map_eq_nil.mp h0)
  have hperm_heapify : (heapify heap0).Perm heap0 := heapify_perm heap0
  have hne1 : heapify heap0 ≠ [] := by
    intro h0
    rw [h0] at hperm_heapify
    exact hne0 (hperm_heapify.nil_eq).symm
  obtain ⟨root, hroot, hperm⟩ := bht_loop_spec (heapify heap0).length
    (heapify heap0) (le_refl _) hne1
  refine ⟨root, hroot, hperm.trans ?_⟩
  refine (hperm_heapify.flatMap_right _).trans ?_
  have e := heap_symbols_leaves (py_first_dedup data)
    (fun s => List.count s data)
  rw [heap_symbols] at e
  rw [e]

def HTree.size : HTree → Nat
  | .leaf _ _ => 1
  | .node _ l r => 1 + l.size + r.size

/-- Python dict assignment `codes[symbol] = current_code`: overwrite in
place if the key exists, else append at the end (insertion order). -/
def dict_set (m : List (Nat × List Bool)) (k : Nat) (v : List Bool) :
    List (Nat × List Bool) :=
  if (m.lookup k).isSome then
    m.map (fun p => if p.1 = k then (k, v) else p)
  else m ++ [(k, v)]

/-- Embedding of `build_huffman_codes` (huffman.py lines 61-88): iterative
DFS with an explicit stack; the list head is the stack top, so pushing
`(right, code+"1")` then `(left, code+"0")` pops the left child first.
Bits are booleans, `true` for the character "1". -/
def bhc_go : List (HTree × List Bool) → List (Nat × List Bool) →
    List (Nat × List Bool)
  | [], codes => codes
  | (HTree.leaf s _, code) :: stack, codes =>
    bhc_go stack (dict_set codes s code)
  | (HTree.node _ l r, code) :: stack, codes =>
    bhc_go ((l, code ++ [false]) :: (r, code ++ [true]) :: stack) codes
termination_by stack _ => (stack.map (fun p => p.1.size)).sum
decreasing_by
  all_goals simp only [List.map_cons, List.sum_cons, HTree.size]
  · omega
  · omega

def build_huffman_codes (root : HTree) : List (Nat × List Bool) :=
  bhc_go [(root, [])] []

/-- The (symbol, code) pairs `build_huffman_codes` emits for the subtree
reached along `code`, in emission order. -/
def HTree.enum : HTree → List Bool → List (Nat × List Bool)
  | .leaf s _, code => [(s, code)]
  | .node _ l r, code =>
    l.enum (code ++ [false]) ++ r.enum (code ++ [true])

lemma lookup_eq_none_of_not_mem_keys (m : List (Nat × List Bool)) (k : Nat)
    (h : k ∉ m.map Prod.fst) : m.lookup k = none := by
  induction m with
  | nil => rfl
  | cons p rest ih =>
    simp only [List.map_cons, List.mem_cons] at h
    push_neg at h
    rw [List.lookup_cons]
    have hbeq : (k == p.1) = false := by
      simp
      exact fun he => h.1 he
    rw [hbeq]
    exact ih h.2

lemma bhc_go_nil (codes : List (Nat × List Bool)) : bhc_go [] codes = codes := by
  rw [bhc_go]

lemma bhc_go_leaf (s fr : Nat) (code : List Bool)
    (stack : List (HTree × List Bool)) (codes : List (Nat × List Bool)) :
    bhc_go ((HTree.leaf s fr, code) :: stack) codes =
      bhc_go stack (dict_set codes s code) := by
  rw [bhc_go]

lemma bhc_go_node (fr : Nat) (l r : HTree) (code : List Bool)
    (stack : List (HTree × List Bool)) (codes : List (Nat × List Bool)) :
    bhc_go ((HTree.node fr l r, code) :: stack) codes =
      bhc_go ((l, code ++ [false]) :: (r, code ++ [true]) :: stack) codes := by
  rw [bhc_go]

lemma bhc_go_spec :
    ∀ fuel stack codes,
      (stack.map (fun p => p.1.size)).sum ≤ fuel →
      (codes.map Prod.fst ++
        stack.flatMap (fun p => p.1.symbols)).Nodup →
      bhc_go stack codes =
        codes ++ stack.flatMap (fun p => p.1.enum p.2) := by
  intro fuel
  induction fuel with
  | zero =>
    intro stack codes hf hnd
    rcases stack with _ | ⟨⟨t, code⟩, rest⟩
    · simp [bhc_go_nil]
    · rcases t with ⟨s, fr⟩ | ⟨fr, l, r⟩ <;>
        simp [HTree.size, List.map_cons, List.sum_cons] at hf
  | succ fuel ih =>
    intro stack codes hf hnd
    rcases stack with _ | ⟨⟨t, code⟩, rest⟩
    · simp [bhc_go_nil]
    · rcases t with ⟨s, fr⟩ | ⟨fr, l, r⟩
      · -- leaf: record the code for s, which is not in the dict yet
        rw [List.flatMap_cons] at hnd
        rw [show (HTree.leaf s fr).symbols = [s] from rfl] at hnd
        have hs_not : s ∉ codes.map Prod.fst := by
          intro hmem
          have hnd2 := hnd
          rw [List.nodup_append] at hnd2
          exact hnd2.2.2 hmem (by simp)
        have hset : dict_set codes s code = codes ++ [(s, code)] := by
          rw [dict_set, lookup_eq_none_of_not_mem_keys codes s hs_not]
          rfl
        have hf' : (rest.map (fun p => p.1.size)).sum ≤ fuel := by
          simp only [List.map_cons, List.sum_cons, HTree.size] at hf
          omega
        have hnd' : ((codes ++ [(s, code)]).map Prod.fst ++
            rest.flatMap (fun p => p.1.symbols)).Nodup := by
          rw [List.map_append,
            show ([(s, code)] : List (Nat × List Bool)).map Prod.fst = [s]
              from rfl,
            List.append_assoc]
          exact hnd
        rw [bhc_go_leaf, hset, ih rest (codes ++ [(s, code)]) hf' hnd',
          List.flatMap_cons,
          show (HTree.leaf s fr).enum code = [(s, code)] from rfl]
        simp
      · -- internal node: push the two children
        rw [List.flatMap_cons] at hnd
        rw [show (HTree.node fr l r).symbols = l.symbols ++ r.symbols
          from rfl] at hnd
        have hf' : ((((l, code ++ [false]) :: (r, code ++ [true]) ::
            rest)).map (fun p => p.1.size)).sum ≤ fuel := by
          simp only [List.map_cons, List.sum_cons, HTree.size] at hf ⊢
          omega
        have hnd' : (codes.map Prod.fst ++
            (((l, code ++ [false]) :: (r, code ++ [true]) ::
              rest)).flatMap (fun p => p.1.symbols)).Nodup := by
          rw [List.flatMap_cons, List.flatMap_cons]
          simpa [List.append_assoc] using hnd
        rw [bhc_go_node, ih _ codes hf' hnd', List.flatMap_cons,
          List.flatMap_cons, List.flatMap_cons,
          show (HTree.node fr l r).enum code =
            l.enum (code ++ [false]) ++ r.enum (code ++ [true]) from rfl]
        simp

lemma build_huffman_codes_spec (root : HTree) (hnd : root.symbols.Nodup) :
    build_huffman_codes root = root.enum [] := by
  rw [build_huffman_codes,
    bhc_go_spec (([(root, ([] : List Bool))]).map
      (fun p => p.1.size)).sum [(root, [])] [] (le_refl _) (by simpa using hnd)]
  simp

/-- `p` is an initial segment of `l`. -/
def code_ext (p l : List Bool) : Prop := ∃ t, p ++ t = l

lemma code_ext_refl (l : List Bool) : code_ext l l := ⟨[], List.append_nil l⟩

lemma code_ext_drop (pre q c : List Bool) (h : code_ext (pre ++ q) c) :
    code_ext pre c := by
  obtain ⟨t, ht⟩ := h
  exact ⟨q ++ t, by rw [← List.append_assoc, ht]⟩

lemma enum_map_fst (t : HTree) : ∀ pre, (t.enum pre).map Prod.fst = t.symbols := by
  induction t with
  | leaf s fr => intro pre; rfl
  | node fr l r ihl ihr =>
    intro pre
    rw [HTree.enum, List.map_append, ihl, ihr, HTree.symbols]

lemma enum_code_ext (t : HTree) : ∀ pre s c, (s, c) ∈ t.enum pre →
    code_ext pre c := by
  induction t with
  | leaf s0 fr =>
    intro pre s c hmem
    rw [HTree.enum, List.mem_singleton, Prod.mk.injEq] at hmem
    rw [hmem.2]
    exact code_ext_refl pre
  | node fr l r ihl ihr =>
    intro pre s c hmem
    rw [HTree.enum, List.mem_append] at hmem
    rcases hmem with hmem | hmem
    · exact code_ext_drop pre [false] c (ihl _ s c hmem)
    · exact code_ext_drop pre [true] c (ihr _ s c hmem)

lemma code_ext_branch_disjoint (pre ca cb : List Bool)
    (ha : code_ext (pre ++ [false]) ca) (hb : code_ext (pre ++ [true]) cb) :
    ¬ code_ext ca cb ∧ ¬ code_ext cb ca := by
  obtain ⟨ta, hta⟩ := ha
  obtain ⟨tb, htb⟩ := hb
  constructor
  · rintro ⟨u, hu⟩
    rw [← hta, ← htb] at hu
    rw [List.append_assoc, List.append_assoc, List.append_assoc] at hu
    have := List.append_cancel_left hu
    simp at this
  · rintro ⟨u, hu⟩
    rw [← hta, ← htb] at hu
    rw [List.append_assoc, List.append_assoc, List.append_assoc] at hu
    have := List.append_cancel_left hu
    simp at this

lemma enum_pairwise (t : HTree) : ∀ pre,
    (t.enum pre).Pairwise
      (fun a b => ¬ code_ext a.2 b.2 ∧ ¬ code_ext b.2 a.2) := by
  induction t with
  | leaf s fr => intro pre; simp [HTree.enum]
  | node fr l r ihl ihr =>
    intro pre
    rw [HTree.enum, List.pairwise_append]
    refine ⟨ihl _, ihr _, ?_⟩
    intro a ha b hb
    exact code_ext_branch_disjoint pre a.2 b.2
      (enum_code_ext l _ a.1 a.2 (by simpa using ha))
      (enum_code_ext r _ b.1 b.2 (by simpa using hb))

lemma lookup_eq_none_keys {α β : Type} [BEq α] [LawfulBEq α]
    (m : List (α × β)) (k : α) (h : k ∉ m.map Prod.fst) :
    m.lookup k = none := by
  induction m with
  | nil => rfl
  | cons p rest ih =>
    simp only [List.map_cons, List.mem_cons] at h
    push_neg at h
    rw [List.lookup_cons]
    have hbeq : (k == p.1) = false := by
      simp
      exact fun he => h.1 he
    rw [hbeq]
    exact ih h.2

lemma lookup_some_of_mem_keys (m : List (Nat × List Bool)) (s : Nat)
    (h : s ∈ m.map Prod.fst) :
    ∃ c, m.lookup s = some c ∧ (s, c) ∈ m := by
  induction m with
  | nil => simp at h
  | cons p rest ih =>
    by_cases hsp : s = p.1
    · refine ⟨p.2, ?_, ?_⟩
      · rw [List.lookup_cons, show (s == p.1) = true from by simp [hsp]]
      · have he : (s, p.2) = p := by
          rw [hsp]
        rw [he]
        exact List.mem_cons_self p rest
    · simp only [List.map_cons, List.mem_cons] at h
      rcases h with h | h
      · exact absurd h hsp
      · obtain ⟨c, hc1, hc2⟩ := ih h
        refine ⟨c, ?_, List.mem_cons_of_mem p hc2⟩
        rw [List.lookup_cons, show (s == p.1) = false from by simp [hsp], hc1]

/-- The dict comprehension `{v: k for k, v in huffman_codes.items()}`
(huffman.py line 171), with Python dict insertion/overwrite semantics. -/
def dict_set_rev (m : List (List Bool × Nat)) (k : List Bool) (v : Nat) :
    List (List Bool × Nat) :=
  if (m.lookup k).isSome then
    m.map (fun p => if p.1 = k then (k, v) else p)
  else m ++ [(k, v)]

def build_reverse (codes : List (Nat × List Bool)) : List (List Bool × Nat) :=
  codes.foldl (fun rev p => dict_set_rev rev p.2 p.1) []

lemma build_reverse_go (codes : List (Nat × List Bool)) :
    ∀ rev : List (List Bool × Nat),
      (rev.map Prod.fst ++ codes.map Prod.snd).Nodup →
      codes.foldl (fun rev p => dict_set_rev rev p.2 p.1) rev =
        rev ++ codes.map (fun p => (p.2, p.1)) := by
  induction codes with
  | nil => intro rev _; simp
  | cons p rest ih =>
    intro rev hnd
    rw [List.foldl_cons]
    have hnot : p.2 ∉ rev.map Prod.fst := by
      rw [List.map_cons, List.nodup_append] at hnd
      intro hmem
      exact hnd.2.2 hmem (by simp)
    have hset : dict_set_rev rev p.2 p.1 = rev ++ [(p.2, p.1)] := by
      rw [dict_set_rev, lookup_eq_none_keys rev p.2 hnot]
      rfl
    rw [hset, ih (rev ++ [(p.2, p.1)]) ?_]
    · simp
    · rw [List.map_append,
        show ([(p.2, p.1)] : List (List Bool × Nat)).map Prod.fst = [p.2]
          from rfl,
        List.append_assoc]
      simpa using hnd

lemma build_reverse_eq (codes : List (Nat × List Bool))
    (hnd : (codes.map Prod.snd).Nodup) :
    build_reverse codes = codes.map (fun p => (p.2, p.1)) := by
  rw [build_reverse, build_reverse_go codes [] (by simpa using hnd)]
  rfl

lemma lookup_map_swap (C : List (Nat × List Bool))
    (hnd : (C.map Prod.snd).Nodup) (s : Nat) (c : List Bool)
    (hmem : (s, c) ∈ C) :
    (C.map (fun p => (p.2, p.1))).lookup c = some s := by
  induction C with
  | nil => simp at hmem
  | cons p rest ih =>
    rw [List.map_cons, List.lookup_cons]
    rcases List.mem_cons.mp hmem with heq | hmem2
    · rw [← heq]
      simp
    · have hc_rest : c ∈ rest.map Prod.snd :=
        List.mem_map.mpr ⟨(s, c), hmem2, rfl⟩
      have hne : p.2 ≠ c := by
        rw [List.map_cons, List.nodup_cons] at hnd
        intro he
        rw [he] at hnd
        exact hnd.1 hc_rest
      have hbeq : (c == p.2) = false := by
        simp
        intro he
        exact hne he.symm
      rw [hbeq]
      refine ih ?_ hmem2
      rw [List.map_cons, List.nodup_cons] at hnd
      exact hnd.2

lemma lookup_map_swap_none (C : List (Nat × List Bool)) (c : List Bool)
    (h : c ∉ C.map Prod.snd) :
    (C.map (fun p => (p.2, p.1))).lookup c = none := by
  refine lookup_eq_none_keys _ c ?_
  rw [List.map_map]
  intro hmem
  apply h
  obtain ⟨p, hp, he⟩ := List.mem_map.mp hmem
  exact List.mem_map.mpr ⟨p, hp, he⟩

/-- `int(chunk, 2)` on a chunk of "0"/"1" characters (huffman.py line 142). -/
def bits_to_nat (l : List Bool) : Nat :=
  l.foldl (fun a b => 2 * a + (if b then 1 else 0)) 0

/-- The `k`-character binary rendering with leading zeros,
`f'{byte:08b}'` for `k = 8` (huffman.py line 165), MSB first. -/
def nat_to_bits (k n : Nat) : List Bool :=
  (List.range k).map (fun i => n / 2 ^ (k - 1 - i) % 2 == 1)

/-- The byte conversion of huffman.py lines 141-144: successive 8-character
slices of the padded bit string, each parsed as a binary integer. -/
def pack_bytes (bits : List Bool) : List Nat :=
  if h : bits = [] then []
  else bits_to_nat (bits.take 8) :: pack_bytes (bits.drop 8)
termination_by bits.length
decreasing_by
  rw [List.length_drop]
  have := List.length_pos.mpr h
  omega

lemma pack_bytes_nil : pack_bytes [] = [] := by
  rw [pack_bytes, dif_pos rfl]

lemma pack_bytes_cons (bits : List Bool) (h : bits ≠ []) :
    pack_bytes bits = bits_to_nat (bits.take 8) :: pack_bytes (bits.drop 8) := by
  rw [pack_bytes, dif_neg h]

/-- `''.join(f'{byte:08b}' for byte in encoded_bytes)` (huffman.py line
165). -/
def unpack_bits (encoded_bytes : List Nat) : List Bool :=
  encoded_bytes.flatMap (nat_to_bits 8)

/-- `apply_padding(bits, mode='add')` (huffman.py lines 104-108). -/
def apply_padding_add (bits : List Bool) : List Bool × Nat :=
  (bits ++ List.replicate ((8 - bits.length % 8) % 8) false,
    (8 - bits.length % 8) % 8)

/-- `apply_padding(bits, p, mode='remove')` (huffman.py lines 109-113):
`bits[:-p] if padding_length else bits`. -/
def apply_padding_remove (bits : List Bool) (p : Nat) : List Bool :=
  if p ≠ 0 then bits.take (bits.length - p) else bits

lemma apply_padding_remove_add (bits : List Bool) (p : Nat) :
    apply_padding_remove (bits ++ List.replicate p false) p = bits := by
  rw [apply_padding_remove]
  by_cases hp : p ≠ 0
  · rw [if_pos hp]
    have hlen : (bits ++ List.replicate p false).length - p = bits.length := by
      rw [List.length_append, List.length_replicate]
      omega
    rw [hlen, List.take_left]
  · rw [if_neg hp]
    push_neg at hp
    rw [hp]
    simp

lemma bits8_roundtrip : ∀ (a b c d e f g h : Bool),
    nat_to_bits 8 (bits_to_nat [a, b, c, d, e, f, g, h]) =
      [a, b, c, d, e, f, g, h] := by decide

lemma nat_to_bits_of_length8 (l : List Bool) (h : l.length = 8) :
    nat_to_bits 8 (bits_to_nat l) = l := by
  rcases l with _ | ⟨a, l⟩
  · simp at h
  rcases l with _ | ⟨b, l⟩
  · simp at h
  rcases l with _ | ⟨c, l⟩
  · simp at h
  rcases l with _ | ⟨d, l⟩
  · simp at h
  rcases l with _ | ⟨e, l⟩
  · simp at h
  rcases l with _ | ⟨f, l⟩
  · simp at h
  rcases l with _ | ⟨g, l⟩
  · simp at h
  rcases l with _ | ⟨h8, l⟩
  · simp at h
  rcases l with _ | ⟨i, l⟩
  · exact bits8_roundtrip a b c d e f g h8
  · simp at h

lemma unpack_pack : ∀ fuel (bits : List Bool), bits.length ≤ fuel →
    bits.length % 8 = 0 → unpack_bits (pack_bytes bits) = bits := by
  intro fuel
  induction fuel with
  | zero =>
    intro bits hf _
    have hnil : bits = [] := List.length_eq_zero.mp (by omega)
    rw [hnil, pack_bytes_nil]
    rfl
  | succ f ih =>
    intro bits hf hm
    by_cases hnil : bits = []
    · rw [hnil, pack_bytes_nil]
      rfl
    · rw [pack_bytes_cons bits hnil, unpack_bits, List.flatMap_cons]
      have hlen : 8 ≤ bits.length := by
        have := List.length_pos.mpr hnil
        omega
      have htake : (bits.take 8).length = 8 := by
        rw [List.length_take]
        omega
      rw [nat_to_bits_of_length8 _ htake]
      have hrec := ih (bits.drop 8) (by rw [List.length_drop]; omega)
        (by rw [List.length_drop]; omega)
      rw [unpack_bits] at hrec
      rw [hrec, List.take_append_drop]

/-- `''.join(huffman_codes[symbol] for symbol in data)` (huffman.py line
135); a missing key raises KeyError (`none`). -/
def concat_codes (codes : List (Nat × List Bool)) :
    List Nat → Option (List Bool)
  | [] => some []
  | s :: rest =>
    match codes.lookup s, concat_codes codes rest with
    | some c, some bs => some (c ++ bs)
    | _, _ => none

/-- Embedding of `huffman_encode` (huffman.py lines 120-147): build the
tree and the code dict, concatenate the codes of the symbols, pad to a
multiple of 8 bits and pack into bytes. -/
def huffman_encode (data : List Nat) :
    Option (List Nat × List (Nat × List Bool) × Nat) :=
  match build_huffman_tree data with
  | none => none
  | some root =>
    match concat_codes (build_huffman_codes root) data with
    | none => none
    | some encoded_bits =>
      some (pack_bytes (apply_padding_add encoded_bits).1,
        build_huffman_codes root, (apply_padding_add encoded_bits).2)

/-- The greedy loop of `huffman_decode` (huffman.py lines 172-178): grow
`current_code` bit by bit and emit a symbol whenever it is a key of
`reverse_codes`. -/
def hd_greedy (reverse_codes : List (List Bool × Nat)) :
    List Bool → List Bool → List Nat
  | [], _ => []
  | bit :: rest, current_code =>
    match reverse_codes.lookup (current_code ++ [bit]) with
    | some s => s :: hd_greedy reverse_codes rest []
    | none => hd_greedy reverse_codes rest (current_code ++ [bit])

/-- Embedding of `huffman_decode` (huffman.py lines 150-181). -/
def huffman_decode (encoded_bytes : List Nat)
    (huffman_codes : List (Nat × List Bool)) (padding_length : Nat) :
    List Nat :=
  hd_greedy (build_reverse huffman_codes)
    (apply_padding_remove (unpack_bits encoded_bytes) padding_length) []

lemma hd_greedy_cons_some (rev : List (List Bool × Nat)) (b : Bool)
    (rest current : List Bool) (s : Nat)
    (h : rev.lookup (current ++ [b]) = some s) :
    hd_greedy rev (b :: rest) current = s :: hd_greedy rev rest [] := by
  simp only [hd_greedy, h]

lemma hd_greedy_cons_none (rev : List (List Bool × Nat)) (b : Bool)
    (rest current : List Bool)
    (h : rev.lookup (current ++ [b]) = none) :
    hd_greedy rev (b :: rest) current =
      hd_greedy rev rest (current ++ [b]) := by
  simp only [hd_greedy, h]

lemma hd_greedy_code (rev : List (List Bool × Nat)) (s : Nat) :
    ∀ (c2 c1 rest : List Bool),
      rev.lookup (c1 ++ c2) = some s →
      (∀ p, code_ext p (c1 ++ c2) → p ≠ [] → p ≠ c1 ++ c2 →
        rev.lookup p = none) →
      c2 ≠ [] →
      hd_greedy rev (c2 ++ rest) c1 = s :: hd_greedy rev rest [] := by
  intro c2
  induction c2 with
  | nil => intro c1 rest _ _ hc2; exact absurd rfl hc2
  | cons b c2' ih =>
    intro c1 rest hfull hpro _
    rcases hnil : c2' with _ | ⟨b2, c2''⟩
    · subst hnil
      rw [List.cons_append, List.nil_append]
      refine hd_greedy_cons_some rev b rest c1 s ?_
      exact hfull
    · rw [← hnil, List.cons_append]
      have hassoc : (c1 ++ [b]) ++ c2' = c1 ++ b :: c2' := by
        rw [List.append_assoc]
        rfl
      have hnone : rev.lookup (c1 ++ [b]) = none := by
        refine hpro (c1 ++ [b]) ⟨c2', hassoc⟩ (by simp) ?_
        intro he
        have he2 : ([b] : List Bool) = b :: c2' := List.append_cancel_left he
        rw [hnil] at he2
        simp at he2
      rw [hd_greedy_cons_none rev b (c2' ++ rest) c1 hnone]
      refine ih (c1 ++ [b]) rest ?_ ?_ (by rw [hnil]; simp)
      · rw [hassoc]
        exact hfull
      · rw [hassoc]
        exact hpro

lemma concat_codes_some (C : List (Nat × List Bool)) :
    ∀ xs : List Nat, (∀ s ∈ xs, (C.lookup s).isSome) →
      ∃ bits, concat_codes C xs = some bits := by
  intro xs
  induction xs with
  | nil => intro _; exact ⟨[], rfl⟩
  | cons s rest ih =>
    intro h
    obtain ⟨c, hc⟩ := Option.isSome_iff_exists.mp (h s (by simp))
    obtain ⟨bs, hbs⟩ := ih (fun s2 hs2 => h s2 (by simp [hs2]))
    refine ⟨c ++ bs, ?_⟩
    simp only [concat_codes, hc, hbs]

lemma hd_greedy_concat (rev : List (List Bool × Nat))
    (C : List (Nat × List Bool)) :
    ∀ (xs : List Nat) (bits : List Bool),
      concat_codes C xs = some bits →
      (∀ s ∈ xs, ∃ c, C.lookup s = some c ∧ rev.lookup c = some s ∧
        c ≠ [] ∧
        ∀ p, code_ext p c → p ≠ [] → p ≠ c → rev.lookup p = none) →
      hd_greedy rev bits [] = xs := by
  intro xs
  induction xs with
  | nil =>
    intro bits hbits _
    simp only [concat_codes, Option.some.injEq] at hbits
    rw [← hbits]
    rfl
  | cons s rest ih =>
    intro bits hbits hall
    obtain ⟨c, hc, hrev, hcne, hpro⟩ := hall s (by simp)
    simp only [concat_codes, hc] at hbits
    rcases hrest : concat_codes C rest with _ | bs
    · rw [hrest] at hbits
      exact absurd hbits (by simp)
    · rw [hrest] at hbits
      simp only [Option.some.injEq] at hbits
      rw [← hbits]
      have hstep := hd_greedy_code rev s c [] bs
        (by rw [List.nil_append]; exact hrev)
        (by rw [List.nil_append]; exact hpro) hcne
      rw [hstep, ih bs hrest (fun s2 hs2 => hall s2 (by simp [hs2]))]

lemma huffman_roundtrip_aux (x : List Nat) (a b : Nat) (ha : a ∈ x)
    (hb : b ∈ x) (hab : a ≠ b) :
    (huffman_encode x).map (fun e => huffman_decode e.1 e.2.1 e.2.2) =
      some x := by
  have hne : x ≠ [] := by
    intro h0
    rw [h0] at ha
    exact absurd ha (by simp)
  obtain ⟨root, hroot, hsym⟩ := build_huffman_tree_spec x hne
  have hnd_sym : root.symbols.Nodup :=
    (hsym.nodup_iff).mpr (py_first_dedup_nodup x)
  have hcodes : build_huffman_codes root = root.enum [] :=
    build_huffman_codes_spec root hnd_sym
  have hnode : ∃ fr l r, root = HTree.node fr l r := by
    rcases hroot2 : root with ⟨s, fr⟩ | ⟨fr, l, r⟩
    · exfalso
      rw [hroot2] at hsym
      have hsingle : py_first_dedup x = [s] :=
        (List.singleton_perm.mp hsym).symm
      have ha' : a ∈ py_first_dedup x := (py_first_dedup_mem x a).mpr ha
      have hb' : b ∈ py_first_dedup x := (py_first_dedup_mem x b).mpr hb
      rw [hsingle] at ha' hb'
      simp at ha' hb'
      exact hab (ha'.trans hb'.symm)
    · exact ⟨fr, l, r, rfl⟩
  obtain ⟨fr, l, r, hr⟩ := hnode
  set C := root.enum [] with hC
  have hkeys : C.map Prod.fst = root.symbols := by
    rw [hC]
    exact enum_map_fst root []
  have hpw : C.Pairwise
      (fun p q => ¬ code_ext p.2 q.2 ∧ ¬ code_ext q.2 p.2) := by
    rw [hC]
    exact enum_pairwise root []
  have hvals : (C.map Prod.snd).Nodup := by
    refine List.Pairwise.map Prod.snd ?_ hpw
    intro p q hpq he
    exact hpq.1 (he ▸ code_ext_refl p.2)
  have hrev : build_reverse C = C.map (fun p => (p.2, p.1)) :=
    build_reverse_eq C hvals
  have hsymm : Symmetric (fun p q : Nat × List Bool =>
      ¬ code_ext p.2 q.2 ∧ ¬ code_ext q.2 p.2) := by
    intro u v huv
    exact ⟨huv.2, huv.1⟩
  have hall : ∀ s ∈ x, ∃ c, C.lookup s = some c ∧
      (C.map (fun p => (p.2, p.1))).lookup c = some s ∧ c ≠ [] ∧
      ∀ p, code_ext p c → p ≠ [] → p ≠ c →
        (C.map (fun p => (p.2, p.1))).lookup p = none := by
    intro s hs
    have hs2 : s ∈ C.map Prod.fst := by
      rw [hkeys]
      exact hsym.mem_iff.mpr ((py_first_dedup_mem x s).mpr hs)
    obtain ⟨c, hc1, hc2⟩ := lookup_some_of_mem_keys C s hs2
    refine ⟨c, hc1, lookup_map_swap C hvals s c hc2, ?_, ?_⟩
    · have hmem2 := hc2
      rw [hC, hr, HTree.enum] at hmem2
      rcases List.mem_append.mp hmem2 with hm | hm
      · obtain ⟨t, ht⟩ := enum_code_ext l ([] ++ [false]) s c hm
        intro h0
        rw [h0] at ht
        simp at ht
      · obtain ⟨t, ht⟩ := enum_code_ext r ([] ++ [true]) s c hm
        intro h0
        rw [h0] at ht
        simp at ht
    · intro p hext hpne hpne2
      refine lookup_map_swap_none C p ?_
      intro hpval
      obtain ⟨⟨s2, c2⟩, hqmem, hqeq⟩ := List.mem_map.mp hpval
      dsimp at hqeq
      rw [← hqeq] at hext hpne2
      have hpair_ne : (s2, c2) ≠ (s, c) := by
        intro he
        exact hpne2 (congrArg Prod.snd he)
      have hR := hpw.forall hsymm hqmem hc2 hpair_ne
      exact hR.1 hext
  obtain ⟨bits, hbits⟩ := concat_codes_some C x
    (fun s hs => by
      obtain ⟨c, hc, -⟩ := hall s hs
      rw [hc]
      rfl)
  have henc : huffman_encode x =
      some (pack_bytes (apply_padding_add bits).1, C,
        (apply_padding_add bits).2) := by
    simp only [huffman_encode]
    rw [hroot]
    dsimp only
    rw [hcodes, hbits]
  rw [henc, Option.map_some']
  dsimp only
  rw [huffman_decode, hrev]
  have hmod : (apply_padding_add bits).1.length % 8 = 0 := by
    rw [apply_padding_add]
    dsimp only
    rw [List.length_append, List.length_replicate]
    omega
  have hunpack : unpack_bits (pack_bytes (apply_padding_add bits).1) =
      (apply_padding_add bits).1 :=
    unpack_pack ((apply_padding_add bits).1.length) _ (le_refl _) hmod
  rw [hunpack,
    show (apply_padding_add bits).1 =
      bits ++ List.replicate ((8 - bits.length % 8) % 8) false from rfl,
    show (apply_padding_add bits).2 = (8 - bits.length % 8) % 8 from rfl,
    apply_padding_remove_add]
  rw [hd_greedy_concat _ C x bits hbits hall]

/-- C5 (amended): Huffman decoding inverts Huffman encoding for every input
containing at least two distinct symbols.  The single-distinct-symbol case
the claim includes is refuted by `huffman_roundtrip_counterexample`: the
sole symbol gets the empty code string, the encoded bit stream is empty and
decoding returns `[]`. -/
theorem huffman_roundtrip (x : List Nat) (a b : Nat) (ha : a ∈ x)
    (hb : b ∈ x) (hab : a ≠ b) :
    (huffman_encode x).map (fun e => huffman_decode e.1 e.2.1 e.2.2) =
      some x :=
  huffman_roundtrip_aux x a b ha hb hab

/-- Witness for C5 (amended): the two-symbol input `[0, 1]` has two
distinct symbols and round-trips through Huffman encode/decode. -/
theorem huffman_roundtrip_witness :
    (0 : Nat) ∈ [0, 1] ∧ (1 : Nat) ∈ [0, 1] ∧ (0 : Nat) ≠ 1 ∧
      (huffman_encode [0, 1]).map
        (fun e => huffman_decode e.1 e.2.1 e.2.2) = some [0, 1] :=
  ⟨by decide, by decide, by decide,
    huffman_roundtrip [0, 1] 0 1 (by decide) (by decide) (by decide)⟩

/-- Counterexample for C5 as stated: for the single-distinct-symbol input
`[0]` the Huffman tree is a lone leaf, its code is the empty string, the
encoded payload is empty, and decoding returns `[]` instead of `[0]`. -/
theorem huffman_roundtrip_counterexample :
    huffman_encode [0] = some ([], [(0, [])], 0) ∧
      huffman_decode [] [(0, [])] 0 = [] := by
  have htree : build_huffman_tree [0] = some (HTree.leaf 0 1) := by
    rw [build_huffman_tree]
    rw [show heapify ((py_first_dedup [0]).map
        (fun s => HTree.leaf s (List.count s [0]))) = [HTree.leaf 0 1]
      from rfl]
    rw [bht_loop_exit _ (by decide)]
    rfl
  have hcodes : build_huffman_codes (HTree.leaf 0 1) = [(0, [])] := by
    rw [build_huffman_codes, bhc_go_leaf, bhc_go_nil]
    rfl
  constructor
  · simp only [huffman_encode]
    rw [htree]
    dsimp only
    rw [hcodes]
    rw [show concat_codes [((0 : Nat), ([] : List Bool))] [0] = some []
      from rfl]
    dsimp only
    rw [show (apply_padding_add []).1 = ([] : List Bool) from rfl,
      pack_bytes_nil,
      show (apply_padding_add ([] : List Bool)).2 = 0 from rfl]
  · rw [huffman_decode]
    rfl

lemma rle_decode_rle_encode (x : List Nat) :
    rle_decode (rle_encode x) = some x := by
  cases x with
  | nil => simp [rle_encode, rle_decode]
  | cons d rest =>
    simp only [rle_encode]
    rw [rle_decode_rle_encode_loop rest d 1 (by omega)]
    simp

lemma rle_encode_11 : rle_encode [1, 1] = [255, 2, 1] := by
  have h1 : rle_encode [1, 1] = flush_run 1 2 := rfl
  rw [h1, flush_run, if_neg (by omega), flush_run_loop, dif_neg (by omega)]

lemma mft_decode_loop_length :
    ∀ (encoded mtf_list d : List Nat),
      mft_decode_loop mtf_list encoded = some d →
      d.length = encoded.length := by
  intro encoded
  induction encoded with
  | nil =>
    intro mtf_list d h
    simp only [mft_decode_loop, Option.some.injEq] at h
    rw [← h]
  | cons index rest ih =>
    intro mtf_list d h
    simp only [mft_decode_loop] at h
    by_cases hidx : index < mtf_list.length
    · rw [dif_pos hidx] at h
      rcases hloop : mft_decode_loop
          (mtf_list.get ⟨index, hidx⟩ :: mtf_list.eraseIdx index) rest
        with _ | d2
      · rw [hloop] at h
        exact absurd h (by simp)
      · rw [hloop, Option.map_some'] at h
        simp only [Option.some.injEq] at h
        rw [← h, List.length_cons, ih _ d2 hloop, List.length_cons]
    · rw [dif_neg hidx] at h
      exact absurd h (by simp)

lemma mft_decode_ne_nil (encoded symbols : List Nat) (h : encoded ≠ []) :
    mft_decode encoded symbols = none := by
  rcases hloop : mft_decode_loop symbols encoded with _ | d
  · simp only [mft_decode, hloop]
  · simp only [mft_decode, hloop]
    have hlen := mft_decode_loop_length encoded symbols d hloop
    have hdne : ¬ d.isEmpty = true := by
      rw [List.isEmpty_iff]
      intro h0
      rw [h0] at hlen
      exact h (List.length_eq_zero.mp (by simpa using hlen.symm))
    rw [if_neg hdne]

/-- `{bytes([i]): i for i in range(256)}` (lzw.py lines 28 and 54). -/
def lzw_init_dict : List (List Nat × Nat) :=
  (List.range 256).map (fun i => ([i], i))

/-- The loop state of `lzw_encode` (lzw.py lines 27-33). -/
structure LZWEncSt where
  dictionary : List (List Nat × Nat)
  dictionary_size : Nat
  current_sequence : List Nat
  encoded_output : List Nat
  current_code_size : Nat
  max_dictionary_size : Nat

/-- One iteration of the `for symbol in data` loop of `lzw_encode`
(lzw.py lines 35-59); `bytes([symbol])` raises ValueError for a symbol
above 255 (`none`), and a dict miss raises KeyError (`none`,
unreachable in practice since single bytes are always present). -/
def lzw_encode_step (initial_code_size max_code_size : Nat)
    (st : LZWEncSt) (symbol : Nat) : Option LZWEncSt :=
  if 255 < symbol then none
  else
    let combined_sequence := st.current_sequence ++ [symbol]
    if (st.dictionary.lookup combined_sequence).isSome then
      some { st with current_sequence := combined_sequence }
    else
      match st.dictionary.lookup st.current_sequence with
      | none => none
      | some code =>
        let out := st.encoded_output ++ [code]
        let dict2 := st.dictionary ++ [(combined_sequence, st.dictionary_size)]
        if st.dictionary_size < 2 ^ max_code_size then
          if st.dictionary_size + 1 = st.max_dictionary_size ∧
              st.current_code_size < max_code_size then
            some { dictionary := dict2,
                   dictionary_size := st.dictionary_size + 1,
                   current_sequence := [symbol], encoded_output := out,
                   current_code_size := st.current_code_size + 1,
                   max_dictionary_size := 2 ^ (st.current_code_size + 1) }
          else
            some { dictionary := dict2,
                   dictionary_size := st.dictionary_size + 1,
                   current_sequence := [symbol], encoded_output := out,
                   current_code_size := st.current_code_size,
                   max_dictionary_size := st.max_dictionary_size }
        else
          some { dictionary := lzw_init_dict, dictionary_size := 256,
                 current_sequence := [symbol], encoded_output := out,
                 current_code_size := initial_code_size,
                 max_dictionary_size := 2 ^ initial_code_size }

def lzw_encode_go (initial_code_size max_code_size : Nat) :
    List Nat → LZWEncSt → Option LZWEncSt
  | [], st => some st
  | symbol :: rest, st =>
    match lzw_encode_step initial_code_size max_code_size st symbol with
    | none => none
    | some st2 => lzw_encode_go initial_code_size max_code_size rest st2

/-- Embedding of `lzw_encode` (lzw.py lines 12-66). -/
def lzw_encode (initial_code_size max_code_size : Nat)
    (data : List Nat) : Option (List Nat) :=
  match lzw_encode_go initial_code_size max_code_size data
      { dictionary := lzw_init_dict, dictionary_size := 256,
        current_sequence := [], encoded_output := [],
        current_code_size := initial_code_size,
        max_dictionary_size := 2 ^ initial_code_size } with
  | none => none
  | some st =>
    if st.current_sequence.isEmpty then some st.encoded_output
    else
      match st.dictionary.lookup st.current_sequence with
      | none => none
      | some code => some (st.encoded_output ++ [code])

/-- `{i: bytes([i]) for i in range(256)}` (lzw.py lines 87 and 117). -/
def lzw_init_dict_dec : List (Nat × List Nat) :=
  (List.range 256).map (fun i => (i, [i]))

/-- The loop state of `lzw_decode` (lzw.py lines 86-93). -/
structure LZWDecSt where
  dictionary : List (Nat × List Nat)
  dictionary_size : Nat
  decoded_bytes : List Nat
  current_code_size : Nat
  max_dictionary_size : Nat
  previous_sequence : List Nat

/-- One iteration of the `for code in encoded[1:]` loop of `lzw_decode`
(lzw.py lines 95-122); an unknown code raises ValueError (`none`). -/
def lzw_decode_step (initial_code_size max_code_size : Nat)
    (st : LZWDecSt) (code : Nat) : Option LZWDecSt :=
  match (match st.dictionary.lookup code with
    | some cur => some cur
    | none =>
      if code = st.dictionary_size then
        some (st.previous_sequence ++ st.previous_sequence.take 1)
      else none) with
  | none => none
  | some current_sequence =>
    let dec := st.decoded_bytes ++ current_sequence
    let entry := st.previous_sequence ++ current_sequence.take 1
    let dict2 := st.dictionary ++ [(st.dictionary_size, entry)]
    if st.dictionary_size < 2 ^ max_code_size then
      if st.dictionary_size + 1 = st.max_dictionary_size ∧
          st.current_code_size < max_code_size then
        some { dictionary := dict2,
               dictionary_size := st.dictionary_size + 1,
               decoded_bytes := dec,
               current_code_size := st.current_code_size + 1,
               max_dictionary_size := 2 ^ (st.current_code_size + 1),
               previous_sequence := current_sequence }
      else
        some { dictionary := dict2,
               dictionary_size := st.dictionary_size + 1,
               decoded_bytes := dec,
               current_code_size := st.current_code_size,
               max_dictionary_size := st.max_dictionary_size,
               previous_sequence := current_sequence }
    else
      some { dictionary := lzw_init_dict_dec, dictionary_size := 256,
             decoded_bytes := dec, current_code_size := initial_code_size,
             max_dictionary_size := 2 ^ initial_code_size,
             previous_sequence := current_sequence }

def lzw_decode_go (initial_code_size max_code_size : Nat) :
    List Nat → LZWDecSt → Option LZWDecSt
  | [], st => some st
  | code :: rest, st =>
    match lzw_decode_step initial_code_size max_code_size st code with
    | none => none
    | some st2 => lzw_decode_go initial_code_size max_code_size rest st2

/-- Embedding of `lzw_decode` (lzw.py lines 68-128); `dictionary[encoded[0]]`
raises KeyError for an out-of-range first code (`none`). -/
def lzw_decode (initial_code_size max_code_size : Nat)
    (encoded : List Nat) : Option (List Nat) :=
  match encoded with
  | [] => some []
  | c0 :: rest =>
    match lzw_init_dict_dec.lookup c0 with
    | none => none
    | some previous_sequence =>
      match lzw_decode_go initial_code_size max_code_size rest
          { dictionary := lzw_init_dict_dec, dictionary_size := 256,
            decoded_bytes := previous_sequence,
            current_code_size := initial_code_size,
            max_dictionary_size := 2 ^ initial_code_size,
            previous_sequence := previous_sequence } with
      | none => none
      | some st => some st.decoded_bytes

/-- `struct.unpack("!I", bytes[:4])[0]` (arithmetic.py line 138). -/
def from_be32 (l : List Nat) : Nat := l.foldl (fun a b => 256 * a + b) 0

/-- Embedding of `arithmetic_decode` (arithmetic.py lines 122-162).
Modelled from the spec: the decoder loop (`ArithmeticDecoder.read` over an
adaptive frequency table until the EOF symbol) lives in the missing
`utils.algorithms.coders.arithmethic_coder` module and is abstracted as the
parameter `adec`, given the decoded alphabet size and the payload bytes;
the header length check and the `struct.unpack("!I", ...)` framing are
embedded from the source. -/
def arithmetic_decode (adec : Nat → List Nat → Option (List Nat))
    (encoded_data_bytes : List Nat) : Option (List Nat) :=
  if encoded_data_bytes.length < 4 then none
  else adec (from_be32 (encoded_data_bytes.take 4))
    (encoded_data_bytes.drop 4)

/-- The four compression modes of support.py ('bzip2', 'lzw', 'huffman',
'arithmetic'); any other mode string makes both functions return None. -/
inductive Mode where
  | bzip2
  | lzw
  | huffman
  | arithmetic
deriving DecidableEq

/-- The per-mode compressed-block dict built by `compress_data`
(support.py lines 39-95): metadata (mode, extension, block_number, and for
the non-bzip2 modes the MTF symbols and the SBWT pointer) plus the payload
and, for Huffman, the code table and padding length. -/
inductive CBlock where
  | bz (block_number extension : Nat) (data : List Nat)
  | lzwB (block_number extension : Nat) (symbols : List Nat)
      (orig_ptr : Nat) (data : List Nat)
  | huffB (block_number extension : Nat) (symbols : List Nat)
      (orig_ptr : Nat) (data : List Nat)
      (huffman_codes : List (Nat × List Bool)) (padding_length : Nat)
  | arithB (block_number extension : Nat) (symbols : List Nat)
      (orig_ptr : Nat) (data : List Nat)

/-- Embedding of `compress_data` (support.py lines 23-98).  The bz2 library
(`bzip2_encode`, which wraps `bz2.compress` and may raise) is abstracted as
the parameter `bz_enc`, the missing arithmetic coder as `coder`, and the
key-derived order as `ord_`.  The non-bzip2 modes share the
SBWT → MTF → RLE pipeline of lines 52-68. -/
def compress_data (bz_enc : List Nat → Option (List Nat))
    (coder : List Nat → Nat → List Nat) (ord_ : Nat → Nat)
    (block_number : Nat) (data : List Nat) (extension : Nat)
    (mode : Mode) : Option CBlock :=
  match mode with
  | .bzip2 => (bz_enc data).map (fun d => .bz block_number extension d)
  | .lzw =>
    let enc := sbwt_encode ord_ data
    let mtf := mft_encode enc.1
    let rle_encoded := rle_encode mtf.1
    (lzw_encode 9 16 rle_encoded).map
      (fun d => .lzwB block_number extension mtf.2 enc.2 d)
  | .huffman =>
    let enc := sbwt_encode ord_ data
    let mtf := mft_encode enc.1
    let rle_encoded := rle_encode mtf.1
    (huffman_encode rle_encoded).map
      (fun e => .huffB block_number extension mtf.2 enc.2 e.1 e.2.1 e.2.2)
  | .arithmetic =>
    let enc := sbwt_encode ord_ data
    let mtf := mft_encode enc.1
    let rle_encoded := rle_encode mtf.1
    (arithmetic_encode coder rle_encoded).map
      (fun d => .arithB block_number extension mtf.2 enc.2 d)

/-- The shared RLE → MTF → SBWT inverse pipeline of `decompress_data`
(support.py lines 151-162). -/
def decompress_tail (ord_ : Nat → Nat) (block_number extension : Nat)
    (symbols : List Nat) (orig_ptr : Nat) (rle_encoded : List Nat) :
    Option (Nat × Nat × List Nat) :=
  match rle_decode rle_encoded with
  | none => none
  | some rle_decoded =>
    match mft_decode rle_decoded symbols with
    | none => none
    | some mtf_decoded =>
      match sbwt_decode ord_ mtf_decoded orig_ptr with
      | none => none
      | some decompressed_data =>
        some (block_number, extension, decompressed_data)

/-- Embedding of `decompress_data` (support.py lines 101-168): dispatch on
the stored mode, undo the back-end coding, then the shared inverse
pipeline; the returned triple is `(block_number, extension, data)`.  The
bz2 library is abstracted as `bz_dec` and the missing arithmetic decoder
loop as `adec`. -/
def decompress_data (bz_dec : List Nat → Option (List Nat))
    (adec : Nat → List Nat → Option (List Nat)) (ord_ : Nat → Nat)
    (block_number : Nat) (compressed_data : CBlock) :
    Option (Nat × Nat × List Nat) :=
  match compressed_data with
  | .bz _ extension d =>
    (bz_dec d).map (fun dd => (block_number, extension, dd))
  | .lzwB _ extension symbols orig_ptr d =>
    match lzw_decode 9 16 d with
    | none => none
    | some rle_encoded =>
      decompress_tail ord_ block_number extension symbols orig_ptr
        rle_encoded
  | .huffB _ extension symbols orig_ptr d huffman_codes padding_length =>
    decompress_tail ord_ block_number extension symbols orig_ptr
      (huffman_decode d huffman_codes padding_length)
  | .arithB _ extension symbols orig_ptr d =>
    match arithmetic_decode adec d with
    | none => none
    | some rle_encoded =>
      decompress_tail ord_ block_number extension symbols orig_ptr
        rle_encoded

lemma perm_range2 (sa : List Nat) (h : sa.Perm (List.range 2)) :
    sa = [0, 1] ∨ sa = [1, 0] := by
  have hlen : sa.length = 2 := by
    rw [h.length_eq]
    rfl
  rcases sa with _ | ⟨a, _ | ⟨b, _ | ⟨c, t⟩⟩⟩
  · simp at hlen
  · simp at hlen
  · have h0 : (0 : Nat) ∈ [a, b] := h.mem_iff.mpr (by decide)
    have h1 : (1 : Nat) ∈ [a, b] := h.mem_iff.mpr (by decide)
    simp at h0 h1
    rcases h0 with h0 | h0 <;> rcases h1 with h1 | h1
    · omega
    · left
      rw [← h0, ← h1]
    · right
      rw [← h0, ← h1]
    · omega
  · simp at hlen

/-- Concrete evaluation of `sbwt_encode` on the one-byte input `[97]`: the
terminator is appended and the two possible keyed orders of the byte set
`{97, 255}` give the two possible outputs. -/
lemma sbwt_encode_97 (ord_ : Nat → Nat) :
    (ord_ 97 < ord_ 255 → sbwt_encode ord_ [97] = ([255, 97], 0)) ∧
      (ord_ 255 < ord_ 97 → sbwt_encode ord_ [97] = ([97, 255], 1)) := by
  set d : List Nat := [97, 255] with hd
  have henc : sbwt_encode ord_ [97] =
      ((build_suffix_array ord_ d).map (fun idx =>
        d.getD ((idx + (build_suffix_array ord_ d).length - 1) %
          (build_suffix_array ord_ d).length) 0),
       (build_suffix_array ord_ d).indexOf 0) := by
    simp only [sbwt_encode]
    rw [if_neg (by decide), hd]
    rfl
  obtain ⟨hperm, hpw⟩ := build_suffix_array_spec ord_ d
  have hperm2 : (build_suffix_array ord_ d).Perm (List.range 2) := hperm
  have h00 : msfx ord_ d 0 = [ord_ 97, ord_ 255] := rfl
  have h01 : msfx ord_ d 1 = [ord_ 255] := rfl
  constructor
  · intro hlt
    rcases perm_range2 _ hperm2 with hsa | hsa
    · rw [henc, hsa, hd]
      decide
    · exfalso
      have hs := hpw
      rw [hsa] at hs
      have hslt : slt ord_ d 1 0 := (List.pairwise_cons.mp hs).1 0 (by simp)
      rw [slt, h01, h00, lex_cons_iff] at hslt
      rcases hslt with h | ⟨he, h⟩
      · omega
      · omega
  · intro hlt
    rcases perm_range2 _ hperm2 with hsa | hsa
    · exfalso
      have hs := hpw
      rw [hsa] at hs
      have hslt : slt ord_ d 0 1 := (List.pairwise_cons.mp hs).1 1 (by simp)
      rw [slt, h00, h01, lex_cons_iff] at hslt
      rcases hslt with h | ⟨he, h⟩
      · omega
      · exact List.Lex.not_nil_right _ _ h
    · rw [henc, hsa, hd]
      decide

lemma decompress_tail_eval (ord_ : Nat → Nat)
    (block_number extension : Nat) (symbols : List Nat) (orig_ptr : Nat)
    (rle_encoded y : List Nat) (hy : rle_decode rle_encoded = some y)
    (hyne : y ≠ []) :
    decompress_tail ord_ block_number extension symbols orig_ptr
      rle_encoded = none := by
  simp only [decompress_tail, hy, mft_decode_ne_nil y symbols hyne]

/-- C1 (code bug): the compress/decompress round-trip fails for every
non-bzip2 mode.  Evaluated for mode `huffman` on the one-byte block `[97]`
with any injective keyed order and any back-end parameters: compression
succeeds, but decompression aborts inside `mft_decode`, whose final
`''.join(decoded)` raises TypeError on the non-empty list of decoded ints
(mtf.py line 85), so `decompress_data` never returns a triple at all, let
alone one whose data component is the input. -/
theorem pipeline_roundtrip_failure
    (bz_enc bz_dec : List Nat → Option (List Nat))
    (coder : List Nat → Nat → List Nat)
    (adec : Nat → List Nat → Option (List Nat)) (ord_ : Nat → Nat)
    (hinj : Function.Injective ord_) (block_number extension : Nat) :
    (compress_data bz_enc coder ord_ block_number [97] extension
        Mode.huffman).bind
      (decompress_data bz_dec adec ord_ block_number) = none := by
  have hne2 : ord_ 97 ≠ ord_ 255 := by
    intro he
    have := hinj he
    omega
  have hmtfA : mft_encode [255, 97] = ([1, 1], [97, 255]) := by decide
  have hmtfB : mft_encode [97, 255] = ([0, 1], [97, 255]) := by decide
  have hrleB : rle_encode [0, 1] = [0, 1] := by decide
  rcases Nat.lt_or_ge (ord_ 97) (ord_ 255) with hlt | hge
  · have hsb := (sbwt_encode_97 ord_).1 hlt
    simp only [compress_data]
    rw [hsb]
    dsimp only
    rw [hmtfA]
    dsimp only
    rw [rle_encode_11]
    have haux := huffman_roundtrip_aux [255, 2, 1] 255 2 (by decide)
      (by decide) (by decide)
    rcases hE : huffman_encode [255, 2, 1] with _ | e
    · rw [hE] at haux
      exact absurd haux (by simp)
    · rw [hE, Option.map_some'] at haux
      simp only [Option.some.injEq] at haux
      rw [Option.map_some', Option.some_bind]
      simp only [decompress_data]
      rw [haux]
      refine decompress_tail_eval ord_ block_number extension [97, 255] 0
        [255, 2, 1] [1, 1] ?_ (by decide)
      rw [← rle_encode_11]
      exact rle_decode_rle_encode [1, 1]
  · have hlt2 : ord_ 255 < ord_ 97 := by omega
    have hsb := (sbwt_encode_97 ord_).2 hlt2
    simp only [compress_data]
    rw [hsb]
    dsimp only
    rw [hmtfB]
    dsimp only
    rw [hrleB]
    have haux := huffman_roundtrip_aux [0, 1] 0 1 (by decide)
      (by decide) (by decide)
    rcases hE : huffman_encode [0, 1] with _ | e
    · rw [hE] at haux
      exact absurd haux (by simp)
    · rw [hE, Option.map_some'] at haux
      simp only [Option.some.injEq] at haux
      rw [Option.map_some', Option.some_bind]
      simp only [decompress_data]
      rw [haux]
      refine decompress_tail_eval ord_ block_number extension [97, 255] 1
        [0, 1] [0, 1] ?_ (by decide)
      rw [← hrleB]
      exact rle_decode_rle_encode [0, 1]

/-- Witness for C1 at concrete parameters: the identity keyed order is
injective and the huffman-mode round-trip on the block `[97]` fails. -/
theorem pipeline_roundtrip_failure_witness :
    Function.Injective (fun c : Nat => c) ∧
      (compress_data (fun l => some l) (fun _ _ => []) (fun c => c) 0 [97] 0
          Mode.huffman).bind
        (decompress_data (fun l => some l) (fun _ _ => some [])
          (fun c => c) 0) = none :=
  ⟨fun a b h => h,
    pipeline_roundtrip_failure (fun l => some l) (fun l => some l)
      (fun _ _ => []) (fun _ _ => some []) (fun c => c)
      (fun a b h => h) 0 0⟩

end HPSBWT
